import Mathlib

/-!
Verification of the pygit repository engine (a minimal content-addressed
version-control system written in Python) against its specification.

The development shallowly embeds the Python sources:
  * `src/pygit/objects.py`   — content-addressed object store,
  * `src/pygit/index.py`     — staging index,
  * `src/pygit/refs.py`      — HEAD / branch / tag / stash references,
  * `src/pygit/resolver.py`  — name resolution,
  * `src/pygit/utils.py`     — commit-DAG walks,
  * `src/pygit/commands.py`  — add / rm / commit / branch / checkout /
                               merge / stash.

Python byte strings are modelled as `List Nat` (one entry per byte); text
strings as Lean `String` with an explicit executable UTF-8 encoder for the
byte boundary.  SHA-1 is implemented in full, so all object ids appearing in
concrete states are the genuine hashes the Python code would compute.
Filesystem state (refs, index, working directory) is modelled as fields of a
`Repo` structure; `zlib` compression is modelled as the identity (the code
only ever composes `compress` with `decompress`, a bijection pair).
-/

set_option maxRecDepth 100000

namespace PyGit

/-- A Python byte string: one `Nat` (0..255) per byte. -/
abbrev Bytes := List Nat

/-! ## Association-list model of Python `dict`

Python dicts preserve insertion order; `d[k] = v` updates in place when the
key exists and appends otherwise.  `dictGet` is `d.get(k)`, `dictDel` is
`del d[k]`. -/

/-- `d.get(k)` on a Python dict (first matching key wins; keys are unique in
any dict the code builds). -/
def dictGet (d : List (String × α)) (k : String) : Option α :=
  match d with
  | [] => none
  | (k', v) :: rest => if k' = k then some v else dictGet rest k

/-- `d[k] = v` on a Python dict: update in place, else append. -/
def dictSet (d : List (String × α)) (k : String) (v : α) : List (String × α) :=
  match d with
  | [] => [(k, v)]
  | (k', v') :: rest =>
      if k' = k then (k', v) :: rest else (k', v') :: dictSet rest k v

/-- `del d[k]` on a Python dict (no-op when absent; the code guards). -/
def dictDel (d : List (String × α)) (k : String) : List (String × α) :=
  match d with
  | [] => []
  | (k', v') :: rest => if k' = k then rest else (k', v') :: dictDel rest k

/-- `list(d.keys())`. -/
def dictKeys (d : List (String × α)) : List String := d.map (·.1)

/-- Python `==` on dicts: order-independent equality of the key-value
mappings. -/
def dictEqb [DecidableEq α] (d₁ d₂ : List (String × α)) : Bool :=
  (dictKeys d₁ ++ dictKeys d₂).all (fun k => dictGet d₁ k = dictGet d₂ k)

/-- Python truthiness of an optional string (`None` and `""` are falsy). -/
def optTruthy : Option String → Bool
  | none => false
  | some s => !(s = "")

/-! ## Python string primitives -/

/-- `str.split(sep)` for a single-character separator, on character lists:
`"".split(c) = [""]`, and consecutive separators yield empty pieces, exactly
as in Python. -/
def splitOnChar (sep : Char) : List Char → List (List Char)
  | [] => [[]]
  | c :: cs =>
      let r := splitOnChar sep cs
      if c = sep then [] :: r
      else
        match r with
        | h :: t => (c :: h) :: t
        | [] => [[c]]

/-- `s.split(sep)` for a one-character separator. -/
def pySplit (s : String) (sep : Char) : List String :=
  (splitOnChar sep s.data).map String.mk

/-- `s.startswith(p)`. -/
def pyStartswith (s p : String) : Bool := p.data.isPrefixOf s.data

/-- The last `/`-separated component: `s.split('/')[-1]`. -/
def lastComponent (s : String) : String :=
  ((pySplit s '/').getLast?).getD ""

/-- `s.lower()` (ASCII range; every name the engine lowers is ASCII). -/
def pyLower (s : String) : String :=
  String.mk (s.data.map (fun c =>
    if 'A' ≤ c ∧ c ≤ 'Z' then Char.ofNat (c.toNat + 32) else c))

/-- `s.upper()` (ASCII range). -/
def pyUpper (s : String) : String :=
  String.mk (s.data.map (fun c =>
    if 'a' ≤ c ∧ c ≤ 'z' then Char.ofNat (c.toNat - 32) else c))

/-- `s[n:]` by character count. -/
def pyDrop (s : String) (n : Nat) : String := String.mk (s.data.drop n)

/-- `len(s)` in characters. -/
def pyLen (s : String) : Nat := s.data.length

/-- `sep.join(parts)`. -/
def strJoinSep (sep : String) : List String → String
  | [] => ""
  | [x] => x
  | x :: xs => x ++ sep ++ strJoinSep sep xs

/-- Python `<=` on strings: code-point lexicographic order, decided
structurally on the character lists. -/
def charListLe : List Char → List Char → Bool
  | [], _ => true
  | _ :: _, [] => false
  | c₁ :: t₁, c₂ :: t₂ => if c₁ = c₂ then charListLe t₁ t₂ else decide (c₁ < c₂)

/-- Python `<=` on strings. -/
def strLe (a b : String) : Bool := charListLe a.data b.data

/-- Insert into a `strLe`-sorted list. -/
def orderedInsertKey (k : String) : List String → List String
  | [] => [k]
  | x :: xs => if strLe k x then k :: x :: xs else x :: orderedInsertKey k xs

/-- Insertion sort by `strLe` (what Python's `sorted` computes on a list of
distinct strings). -/
def sortKeys : List String → List String
  | [] => []
  | x :: xs => orderedInsertKey x (sortKeys xs)

/-- Keep the first occurrence of each element (set-of-keys view). -/
def dedupAcc (seen : List String) : List String → List String
  | [] => []
  | x :: xs => if x ∈ seen then dedupAcc seen xs else x :: dedupAcc (x :: seen) xs

/-- Duplicate-free key list, first occurrences kept. -/
def dedupKeys (l : List String) : List String := dedupAcc [] l

/-! ## Decimal rendering (`str(n)` / `f"{len(data)}"`) -/

/-- Decimal digit characters with structural fuel (`fuel` bounds the digit
count; `n + 1` always suffices). -/
def natDigitsAux : Nat → Nat → List Char
  | 0, _ => []
  | fuel + 1, n =>
      if n < 10 then [Char.ofNat (48 + n)]
      else natDigitsAux fuel (n / 10) ++ [Char.ofNat (48 + n % 10)]

/-- The decimal digit characters of `n`, most significant first. -/
def natDigitChars (n : Nat) : List Char := natDigitsAux (n + 1) n

/-- `str(n)` for a natural number. -/
def natStr (n : Nat) : String := String.mk (natDigitChars n)

/-! ## UTF-8 (`str.encode()` / `bytes.decode()`) -/

/-- UTF-8 encoding of a single code point. -/
def utf8Char (c : Char) : Bytes :=
  let n := c.toNat
  if n < 128 then [n]
  else if n < 2048 then [192 + n / 64, 128 + n % 64]
  else if n < 65536 then [224 + n / 4096, 128 + (n / 64) % 64, 128 + n % 64]
  else [240 + n / 262144, 128 + (n / 4096) % 64, 128 + (n / 64) % 64, 128 + n % 64]

/-- `s.encode()`: UTF-8 bytes of a string. -/
def utf8Bytes (s : String) : Bytes := s.data.foldr (fun c acc => utf8Char c ++ acc) []

/-- Rebuild a decoded character onto the tail result. -/
def utf8DecPack (n : Nat) (k : Option (List Char)) : Option (List Char) :=
  match k with
  | some cs => some (Char.ofNat n :: cs)
  | none => none

/-- Decode a two-byte sequence head (given the already-decoded tail). -/
def utf8DecPack2 (b : Nat) (rest : Bytes) (k : Option (List Char)) : Option (List Char) :=
  match rest with
  | b₂ :: _ =>
      if 192 ≤ b ∧ 128 ≤ b₂ ∧ b₂ < 192 then
        utf8DecPack ((b - 192) * 64 + (b₂ - 128)) k
      else none
  | [] => none

/-- Decode a three-byte sequence head. -/
def utf8DecPack3 (b : Nat) (rest : Bytes) (k : Option (List Char)) : Option (List Char) :=
  match rest with
  | b₂ :: b₃ :: _ =>
      if 128 ≤ b₂ ∧ b₂ < 192 ∧ 128 ≤ b₃ ∧ b₃ < 192 then
        utf8DecPack ((b - 224) * 4096 + (b₂ - 128) * 64 + (b₃ - 128)) k
      else none
  | _ => none

/-- Decode a four-byte sequence head. -/
def utf8DecPack4 (b : Nat) (rest : Bytes) (k : Option (List Char)) : Option (List Char) :=
  match rest with
  | b₂ :: b₃ :: b₄ :: _ =>
      if b < 245 ∧ 128 ≤ b₂ ∧ b₂ < 192 ∧ 128 ≤ b₃ ∧ b₃ < 192 ∧ 128 ≤ b₄ ∧ b₄ < 192 then
        utf8DecPack
          ((b - 240) * 262144 + (b₂ - 128) * 4096 + (b₃ - 128) * 64 + (b₄ - 128)) k
      else none
  | _ => none

/-- `bs.decode()`: strict UTF-8 decoding with structural fuel (each step
consumes at least one byte, so `length + 1` always suffices); `none` models
a `UnicodeDecodeError`. -/
def utf8DecAux : Nat → Bytes → Option (List Char)
  | 0, _ => none
  | _ + 1, [] => some []
  | fuel + 1, b :: rest =>
      if b < 128 then utf8DecPack b (utf8DecAux fuel rest)
      else if b < 224 then utf8DecPack2 b rest (utf8DecAux fuel (rest.drop 1))
      else if b < 240 then utf8DecPack3 b rest (utf8DecAux fuel (rest.drop 2))
      else utf8DecPack4 b rest (utf8DecAux fuel (rest.drop 3))

/-- `bs.decode()` on a byte list. -/
def utf8Dec (bs : Bytes) : Option (List Char) := utf8DecAux (bs.length + 1) bs

/-- `bs.decode()` producing a `String`. -/
def utf8DecStr (bs : Bytes) : Option String := (utf8Dec bs).map String.mk

/-! ## SHA-1 (`hashlib.sha1(data).hexdigest()`) -/

/-- Truncation to a 32-bit word. -/
def u32 (n : Nat) : Nat := n % 4294967296

/-- 32-bit left rotation by `k`. -/
def rotl (k n : Nat) : Nat := u32 (Nat.lor (n <<< k) (n >>> (32 - k)))

/-- Big-endian bytes of `n`, `k` bytes wide. -/
def beBytes : Nat → Nat → Bytes
  | 0, _ => []
  | k + 1, n => beBytes k (n / 256) ++ [n % 256]

/-- SHA-1 message padding: `0x80`, zeros to 56 mod 64, then the 64-bit
big-endian bit length. -/
def sha1Pad (msg : Bytes) : Bytes :=
  msg ++ 128 :: List.replicate ((119 - msg.length % 64) % 64) 0 ++ beBytes 8 (msg.length * 8)

/-- Big-endian 32-bit words from a byte list (length a multiple of 4). -/
def wordsOfBytes : Bytes → List Nat
  | a :: b :: c :: d :: rest => (((a * 256 + b) * 256 + c) * 256 + d) :: wordsOfBytes rest
  | _ => []

/-- Extend the 16 schedule words to 80, accumulating in reverse. -/
def sha1Extend : Nat → List Nat → List Nat
  | 0, rw => rw
  | n + 1, rw =>
      let w := rotl 1 (Nat.xor (Nat.xor (rw.getD 2 0) (rw.getD 7 0))
        (Nat.xor (rw.getD 13 0) (rw.getD 15 0)))
      sha1Extend n (w :: rw)

/-- The round function `f` for round `i`. -/
def sha1F (i b c d : Nat) : Nat :=
  if i < 20 then Nat.lor (Nat.land b c) (Nat.land (4294967295 - b) d)
  else if i < 40 then Nat.xor (Nat.xor b c) d
  else if i < 60 then Nat.lor (Nat.lor (Nat.land b c) (Nat.land b d)) (Nat.land c d)
  else Nat.xor (Nat.xor b c) d

/-- The round constant `k` for round `i`. -/
def sha1K (i : Nat) : Nat :=
  if i < 20 then 1518500249
  else if i < 40 then 1859775393
  else if i < 60 then 2400959708
  else 3395469782

/-- One SHA-1 round. -/
def sha1Round (st : Nat × Nat × Nat × Nat × Nat) (iw : Nat × Nat) :
    Nat × Nat × Nat × Nat × Nat :=
  let (a, b, c, d, e) := st
  let (i, w) := iw
  let t := u32 (rotl 5 a + sha1F i b c d + e + sha1K i + w)
  (t, a, rotl 30 b, c, d)

/-- Process one 64-byte block. -/
def sha1Block (h : Nat × Nat × Nat × Nat × Nat) (block : Bytes) :
    Nat × Nat × Nat × Nat × Nat :=
  let ws := (sha1Extend 64 (wordsOfBytes block).reverse).reverse
  let (h0, h1, h2, h3, h4) := h
  let (a, b, c, d, e) := ((List.range 80).zip ws).foldl sha1Round h
  (u32 (h0 + a), u32 (h1 + b), u32 (h2 + c), u32 (h3 + d), u32 (h4 + e))

/-- Split into 64-byte blocks, with structural fuel (the list length always
suffices since each step consumes at least one byte). -/
def toBlocksAux : Nat → Bytes → List Bytes
  | 0, _ => []
  | fuel + 1, bs =>
      if bs.length = 0 then []
      else bs.take 64 :: toBlocksAux fuel (bs.drop 64)

/-- Split a padded message into 64-byte blocks. -/
def toBlocks (bs : Bytes) : List Bytes := toBlocksAux bs.length bs

/-- The five 32-bit state words of the SHA-1 digest of `msg`. -/
def sha1Words (msg : Bytes) : List Nat :=
  let (h0, h1, h2, h3, h4) := (toBlocks (sha1Pad msg)).foldl sha1Block
    (1732584193, 4023233417, 2562383102, 271733878, 3285377520)
  [h0, h1, h2, h3, h4]

/-- Lowercase hexadecimal digit for a nibble. -/
def hexNibble (n : Nat) : Char :=
  if n < 10 then Char.ofNat (48 + n) else Char.ofNat (87 + n)

/-- Eight lowercase hex digits of a 32-bit word, most significant first. -/
def hex8 (n : Nat) : List Char :=
  (List.range 8).map (fun i => hexNibble ((n >>> ((7 - i) * 4)) % 16))

/-- `hashlib.sha1(msg).hexdigest()`: the 40-character lowercase hex digest. -/
def sha1Hex (msg : Bytes) : String :=
  String.mk ((sha1Words msg).foldr (fun w acc => hex8 w ++ acc) [])

/-! ## Byte-level object store (`src/pygit/objects.py`)

The store is the contents of the `objects/` directory: a map from id (file
name) to file contents.  `zlib.compress`/`zlib.decompress` form a bijection
pair and only ever appear composed, so compression is modelled as the
identity on byte streams. -/

namespace Objects

/-- The `objects/` directory: file name (id) to file contents. -/
abbrev Store := List (String × Bytes)

/-- `zlib.compress` (modelled as the identity; see the namespace comment). -/
def zcompress (b : Bytes) : Bytes := b

/-- `zlib.decompress` (modelled as the identity). -/
def zdecompress (b : Bytes) : Bytes := b

/-- `data.find(b'\0')` followed by the two slices: the bytes before the
first zero byte and the bytes after it.  `none` models a stream with no zero
byte (the Python slicing then produces garbage that crashes the caller). -/
def splitAtZero : Bytes → Option (Bytes × Bytes)
  | [] => none
  | b :: rest =>
      if b = 0 then some ([], rest)
      else match splitAtZero rest with
        | some (h, c) => some (b :: h, c)
        | none => none

/-- The framed, uncompressed object stream `<kind> <len>\0<body>`. -/
def frameOf (obj_type : String) (data : Bytes) : Bytes :=
  utf8Bytes (obj_type ++ " " ++ natStr data.length) ++ 0 :: data

/-- `hash_object(data, obj_type)`: hash the framed stream, write the
compressed file if the id is not already present, return the id. -/
def hash_object (store : Store) (data : Bytes) (obj_type : String) : String × Store :=
  let full_data := frameOf obj_type data
  let sha1 := sha1Hex full_data
  (sha1, if (dictGet store sha1).isSome then store
         else store ++ [(sha1, zcompress full_data)])

/-- `read_object(sha1)`: read the file, decompress, split the header at the
first zero byte, decode the header and split it on the single space.
`none` covers both the missing-object `(None, None)` return and the parse
failures that raise in Python. -/
def read_object (store : Store) (sha1 : String) : Option (String × Bytes) :=
  match dictGet store sha1 with
  | none => none
  | some compressed =>
      match splitAtZero (zdecompress compressed) with
      | none => none
      | some (header, content) =>
          match utf8DecStr header with
          | none => none
          | some hs =>
              match pySplit hs ' ' with
              | [obj_type, _] => some (obj_type, content)
              | _ => none

end Objects

/-! ## JSON serialization of tree bodies and the index

Tree bodies and the index file are flat string-to-string JSON objects,
written with `json.dumps(m, sort_keys=True)` (default separators) and read
back with `json.loads`.  The parser below inverts exactly the output shape
`dumps` produces; malformed bodies (which make `json.loads` raise, and are
unreachable through the commands) parse to `none`. -/

/-- Opening brace character. -/
def obChar : Char := Char.ofNat 123

/-- Closing brace character. -/
def cbChar : Char := Char.ofNat 125

/-- JSON string escaping for the characters `dumps` escapes in this data
(quote and backslash; the repository's paths and ids need nothing more). -/
def jsonEscChar (c : Char) : List Char :=
  if c = '"' ∨ c = '\\' then ['\\', c] else [c]

/-- Escape a string for a JSON string literal. -/
def jsonEsc (s : String) : String :=
  String.mk (s.data.foldr (fun c acc => jsonEscChar c ++ acc) [])

/-- The sorted, duplicate-free key list of a mapping (`sort_keys=True`). -/
def sortedKeys (m : List (String × String)) : List String :=
  sortKeys (dedupKeys (dictKeys m))

/-- `json.dumps(m, sort_keys=True)` for a flat string-to-string mapping. -/
def jsonDumps (m : List (String × String)) : String :=
  String.mk [obChar] ++
    strJoinSep ", "
      ((sortedKeys m).map (fun k =>
        "\"" ++ jsonEsc k ++ "\": \"" ++ jsonEsc ((dictGet m k).getD "") ++ "\"")) ++
    String.mk [cbChar]

/-- Scan a JSON string literal body after its opening quote: returns the
unescaped characters and the remainder after the closing quote. -/
def jsonStrChars : List Char → Option (List Char × List Char)
  | [] => none
  | '\\' :: c :: rest =>
      match jsonStrChars rest with
      | some (s, r) => some (c :: s, r)
      | none => none
  | c :: rest =>
      if c = '"' then some ([], rest)
      else match jsonStrChars rest with
        | some (s, r) => some (c :: s, r)
        | none => none

/-- Parse the entry list of a JSON object (after the opening brace, at the
first key's opening quote), with fuel. -/
def jsonEntries : Nat → List Char → Option (List (String × String))
  | 0, _ => none
  | fuel + 1, cs =>
      match cs with
      | '"' :: rest =>
          match jsonStrChars rest with
          | none => none
          | some (k, r₁) =>
              match r₁ with
              | ':' :: ' ' :: '"' :: r₂ =>
                  match jsonStrChars r₂ with
                  | none => none
                  | some (v, r₃) =>
                      match r₃ with
                      | ',' :: ' ' :: r₄ =>
                          match jsonEntries fuel r₄ with
                          | some es => some ((String.mk k, String.mk v) :: es)
                          | none => none
                      | [c] =>
                          if c = cbChar then some [(String.mk k, String.mk v)] else none
                      | _ => none
              | _ => none
      | _ => none

/-- `json.loads` restricted to the flat object shape `dumps` produces. -/
def jsonParse (s : String) : Option (List (String × String)) :=
  match s.data with
  | c :: rest =>
      if c = obChar then
        if rest = [cbChar] then some []
        else jsonEntries (rest.length + 1) rest
      else none
  | [] => none

/-! ## Repository state

One `Repo` value models the whole on-disk state the engine touches:
the `objects/` store (kept here in read view as id ↦ (kind, body); the
byte-level framing is `Objects.frameOf` and is verified separately), the
`HEAD` file, the `refs/heads/*` and `refs/tags/*` files, the `refs/stash`
list, the `index` file, the working directory (path ↦ file text) and the
`config` file.  `now` is the ambient `datetime.now().isoformat()` value.
`none` results model an uncaught Python exception (the process dies; the
partially-written on-disk state is not modelled further). -/

structure Repo where
  objects : List (String × String × String)
  head : String
  branches : List (String × String)
  tags : List (String × String)
  stashes : List String
  index : List (String × String)
  workdir : List (String × String)
  config : List (String × String)
  now : String
deriving DecidableEq

/-- The object id `hash_object` assigns to a text body: SHA-1 of the framed
UTF-8 stream, identical to the byte-level `Objects.hash_object` id. -/
def hashId (obj_type data : String) : String :=
  sha1Hex (utf8Bytes (obj_type ++ " " ++ natStr (utf8Bytes data).length ++ "\x00" ++ data))

/-- `hash_object(data, obj_type)` against the repository store (write if
absent, return the id). -/
def hash_object (st : Repo) (data : String) (obj_type : String) : String × Repo :=
  let sha1 := hashId obj_type data
  (sha1, if (dictGet st.objects sha1).isSome then st
         else { st with objects := st.objects ++ [(sha1, obj_type, data)] })

/-- `read_object(sha1)` against the repository store; `none` is the
`(None, None)` missing-object return. -/
def read_object (st : Repo) (sha1 : String) : Option (String × String) :=
  dictGet st.objects sha1

/-- `get_commit_tree(commit_sha1)`: the id on the commit's `tree ` line. -/
def get_commit_tree (st : Repo) (commit_sha1 : String) : Option String :=
  match read_object st commit_sha1 with
  | none => none
  | some (_, content) =>
      if content = "" then none
      else
        match (pySplit content '\n').filter (fun l => pyStartswith l "tree ") with
        | [] => none
        | l :: _ => some ((pySplit l ' ').getD 1 "")

/-- `get_tree_contents(tree_sha1)`: parse a tree body back to a mapping
(empty for an absent id, a missing object, or an empty body). -/
def get_tree_contents (st : Repo) (tree_sha1 : Option String) : List (String × String) :=
  match tree_sha1 with
  | none => []
  | some tid =>
      if tid = "" then []
      else
        match read_object st tid with
        | none => []
        | some (_, content) =>
            if content = "" then [] else (jsonParse content).getD []

/-! ## References (`src/pygit/refs.py`) -/

/-- `get_head_ref()`: the ref path from an attached `HEAD`, or the raw id. -/
def get_head_ref (st : Repo) : String :=
  if pyStartswith st.head "ref:" then (pySplit st.head ' ').getD 1 "" else st.head

/-- The sixteen lowercase hex digits. -/
def hexLower : List Char := "0123456789abcdef".data

/-- Is `s` a 40-character lowercase hex id? -/
def isHex40 (s : String) : Bool :=
  pyLen s = 40 && s.data.all (fun c => c ∈ hexLower)

/-- `get_head_commit()`: a raw 40-hex `HEAD` is returned directly; an
attached `HEAD` is dereferenced through its branch file (absent file reads
as `none`). -/
def get_head_commit (st : Repo) : Option String :=
  let hr := get_head_ref st
  if isHex40 hr then some hr
  else if pyStartswith hr "refs/heads/" then dictGet st.branches (pyDrop hr 11)
  else none

/-- `get_branch_commit(name)`: read `refs/heads/<name>`. -/
def get_branch_commit (st : Repo) (name : String) : Option String :=
  dictGet st.branches name

/-- `get_tag_ref(name)`: read `refs/tags/<name>`. -/
def get_tag_ref (st : Repo) (name : String) : Option String :=
  dictGet st.tags name

/-- `update_head(ref, detached)`. -/
def update_head (st : Repo) (ref : String) (detached : Bool) : Repo :=
  { st with head := if detached then ref else "ref: " ++ ref }

/-! ## Name resolution (`src/pygit/resolver.py`) -/

/-- The outcome of `resolve_ref`: an id, the printed `Ambiguous` error
(which then returns `None`), or a silent absent. -/
inductive ResolveOut
  | found (id : String)
  | ambiguous
  | notFound
deriving DecidableEq

/-- `resolve_ref(name)`: branch first, then tag, then unique hex-id
scan over the object directory listing. -/
def resolve_ref (st : Repo) (name : String) : ResolveOut :=
  let br := get_branch_commit st name
  if optTruthy br then .found (br.getD "")
  else
    let tg := get_tag_ref st name
    if optTruthy tg then .found (tg.getD "")
    else
      if 4 ≤ pyLen name ∧ (pyLower name).data.all (fun c => c ∈ hexLower) then
        let low := pyLower name
        match (dictKeys st.objects).filter (fun o => pyStartswith o low) with
        | [m] => .found m
        | [] => .notFound
        | _ => .ambiguous
      else .notFound

/-- `resolve_ref` viewed as the Python return value (`Ambiguous` prints and
returns `None`). -/
def resolveOpt (st : Repo) (name : String) : Option String :=
  match resolve_ref st name with
  | .found i => some i
  | _ => none

/-- The tag-peeling loop of `resolve_ref_to_commit`, with fuel (a tag cycle
would loop forever in Python and is unreachable for hash-addressed
stores). -/
def peelToCommit (st : Repo) : Nat → String → Option String
  | 0, _ => none
  | fuel + 1, sha1 =>
      match read_object st sha1 with
      | none => none
      | some (obj_type, content) =>
          if obj_type = "commit" then some sha1
          else if obj_type = "tag" then
            match (pySplit ((pySplit content '\n').getD 0 "") ' ').get? 1 with
            | some nxt => peelToCommit st fuel nxt
            | none => none
          else none

/-- `resolve_ref_to_commit(ref_name)`. -/
def resolve_ref_to_commit (st : Repo) (ref_name : String) : Option String :=
  if ref_name = "" then none
  else
    match resolveOpt st ref_name with
    | none => none
    | some sha1 => peelToCommit st (st.objects.length + 1) sha1

/-- `_resolve_ref_or_head(ref_name, to_commit)` from `commands.py`. -/
def resolve_or_head (st : Repo) (ref_name : String) (to_commit : Bool) : Option String :=
  if pyUpper ref_name = "HEAD" then get_head_commit st
  else if to_commit then resolve_ref_to_commit st ref_name
  else resolveOpt st ref_name

/-! ## DAG walks (`src/pygit/utils.py`) -/

/-- `get_commit_parents(commit_content)`: the ids on `parent ` lines,
skipping the literal `None` sentinel. -/
def get_commit_parents (content : String) : List String :=
  ((pySplit content '\n').filter (fun l => pyStartswith l "parent ")).filterMap
    (fun l =>
      let p := (pySplit l ' ').getD 1 ""
      if p = "None" then none else some p)

/-- Enqueue the unvisited parents, in order, into (queue, visited). -/
def pushParents (qv : List String × List String) (ps : List String) :
    List String × List String :=
  ps.foldl (fun acc p => if p ∈ acc.2 then acc else (acc.1 ++ [p], acc.2 ++ [p])) qv

/-- A fuel bound large enough for every breadth-first walk over the store:
one step per queue pop, and every id ever enqueued comes from a `parent `
line of a stored object (or is the start id). -/
def historyFuel (st : Repo) : Nat :=
  1 + st.objects.length +
    st.objects.foldl (fun a e => a + (pySplit e.2.2 '\n').length) 0

/-- The breadth-first loop of `get_full_history_set`. -/
def bfsHistory (st : Repo) : Nat → List String → List String → List String → List String
  | 0, _, hist, _ => hist
  | _ + 1, [], hist, _ => hist
  | fuel + 1, c :: q, hist, visited =>
      if c = "" then bfsHistory st fuel q hist visited
      else
        let hist' := c :: hist
        match read_object st c with
        | none => bfsHistory st fuel q hist' visited
        | some (_, content) =>
            if content = "" then bfsHistory st fuel q hist' visited
            else
              let (q', visited') := pushParents (q, visited) (get_commit_parents content)
              bfsHistory st fuel q' hist' visited'

/-- `get_full_history_set(start)`: the closed ancestor set (as a list whose
membership is the set). -/
def get_full_history_set (st : Repo) (start : Option String) : List String :=
  match start with
  | none => []
  | some s => if s = "" then [] else bfsHistory st (historyFuel st) [s] [] [s]

/-- The breadth-first loop of `find_common_ancestor` from `commit2`. -/
def bfsLCA (st : Repo) (history1 : List String) :
    Nat → List String → List String → Option String
  | 0, _, _ => none
  | _ + 1, [], _ => none
  | fuel + 1, c :: q, visited =>
      if c ∈ history1 then some c
      else
        match read_object st c with
        | none => bfsLCA st history1 fuel q visited
        | some (_, content) =>
            if content = "" then bfsLCA st history1 fuel q visited
            else
              let (q', visited') := pushParents (q, visited) (get_commit_parents content)
              bfsLCA st history1 fuel q' visited'

/-- `find_common_ancestor(commit1, commit2)`. -/
def find_common_ancestor (st : Repo) (commit1 : Option String) (commit2 : String) :
    Option String :=
  bfsLCA st (get_full_history_set st commit1) (historyFuel st) [commit2] [commit2]

/-! ## Commands (`src/pygit/commands.py`)

The `Bool` in a result is the command's exit status seen by the frontend:
`false` is an explicit `return False` (exit 1), `true` any other return
(exit 0).  `none` models an uncaught exception.  The modelled repositories
have no `.gitignore`, so the ignore guard in `add` never fires. -/

/-- `_create_commit(message, tree_sha1, parents)` (the caller renders an
absent parent as the literal string `None`, matching the f-string). -/
def _create_commit (st : Repo) (message tree_sha1 : String) (parents : List String) :
    String × Repo :=
  let author_name := (dictGet st.config "user.name").getD "PyGit User"
  let author_email := (dictGet st.config "user.email").getD "user@pygit.com"
  let author_string := author_name ++ " <" ++ author_email ++ ">"
  let parent_lines :=
    if parents = [] then "parent None\n"
    else String.join (parents.map (fun p => "parent " ++ p ++ "\n"))
  let commit_data :=
    "tree " ++ tree_sha1 ++ "\n" ++ parent_lines ++
    "author " ++ author_string ++ " " ++ st.now ++ "\n" ++
    "committer " ++ author_string ++ " " ++ st.now ++ "\n" ++
    "\n" ++ message ++ "\n"
  hash_object st commit_data "commit"

/-- `add(filepath)`: hash the file as a blob and stage it. -/
def add (st : Repo) (filepath : String) : Repo × Bool :=
  match dictGet st.workdir filepath with
  | none => (st, false)
  | some content =>
      let (sha1, st₁) := hash_object st content "blob"
      ({ st₁ with index := dictSet st₁.index filepath sha1 }, true)

/-- The three outcomes of the `os.remove` call in `rm`, as an environment
oracle: success, `FileNotFoundError`, or another `OSError`. -/
inductive RemoveOutcome
  | removed
  | fileNotFound
  | osError
deriving DecidableEq

/-- `rm(filepath)`: the index entry is removed and written back BEFORE the
working-tree file is deleted; an `OSError` reports failure but does not
restore the index entry. -/
def rm (st : Repo) (filepath : String) (fs : RemoveOutcome) : Repo × Bool :=
  if (dictGet st.index filepath).isNone then (st, false)
  else
    let st₁ := { st with index := dictDel st.index filepath }
    match fs with
    | .removed => ({ st₁ with workdir := dictDel st₁.workdir filepath }, true)
    | .fileNotFound => (st₁, true)
    | .osError => (st₁, false)

/-- `commit(*args)`: usage check, empty-index early return, tree hash,
commit object, branch-or-detached `HEAD` advance. -/
def commit (args : List String) (st : Repo) : Repo × Bool :=
  match args with
  | "-m" :: message :: _ =>
      if st.index = [] then (st, true)
      else
        let (tree_sha1, st₁) := hash_object st (jsonDumps st.index) "tree"
        let parents :=
          match get_head_commit st₁ with
          | some p => if p = "" then [] else [p]
          | none => []
        let (commit_sha1, st₂) := _create_commit st₁ message tree_sha1 parents
        let head_ref := get_head_ref st₂
        if pyStartswith head_ref "refs/heads/" then
          ({ st₂ with branches := dictSet st₂.branches (pyDrop head_ref 11) commit_sha1 }, true)
        else (update_head st₂ commit_sha1 true, true)
  | _ => (st, false)

/-- `branch(branch_name, start_point)` (creation only; the listing path
prints and mutates nothing). -/
def branch (st : Repo) (branch_name : String) (start_point : Option String) : Repo × Bool :=
  if (dictGet st.branches branch_name).isSome then (st, false)
  else
    match resolve_or_head st (start_point.getD "HEAD") true with
    | none => (st, false)
    | some c =>
        if c = "" then (st, false)
        else ({ st with branches := dictSet st.branches branch_name c }, true)

/-- The tree of the commit `HEAD` resolves to (`get_tree_contents` of
`get_commit_tree` of the HEAD commit), empty when there is no commit —
checkout's `old_tree` and the first leg of the three-tree model. -/
def head_tree (st : Repo) : List (String × String) :=
  match get_head_commit st with
  | some h => get_tree_contents st (get_commit_tree st h)
  | none => []

/-- The file-writing loop of `checkout`: write each blob of the new tree
into the working directory (`none`: the blob is missing from the store and
`f.write(None)` raises). -/
def materialize (st : Repo) (wd : List (String × String)) :
    List (String × String) → Option (List (String × String))
  | [] => some wd
  | (p, sha1) :: rest =>
      match read_object st sha1 with
      | none => none
      | some (_, content) => materialize st (dictSet wd p content) rest

/-- `checkout(name)`: delete old-tree-only files, materialize the target
tree, overwrite the index, update `HEAD` (attached when `name` is a branch,
detached otherwise).  Empty-directory pruning has no effect on the
path-to-content view and is not modelled. -/
def checkout (st : Repo) (name : String) : Option (Repo × Bool) :=
  let old_tree := head_tree st
  match resolve_or_head st name true with
  | none => some (st, false)
  | some commit_sha1 =>
      if commit_sha1 = "" then some (st, false)
      else
        let new_tree := get_tree_contents st (get_commit_tree st commit_sha1)
        let dels := (dictKeys old_tree).filter (fun p => ¬ p ∈ dictKeys new_tree)
        let wd₁ := st.workdir.filter (fun e => ¬ e.1 ∈ dels)
        match materialize st wd₁ new_tree with
        | none => none
        | some wd₂ =>
            let st₁ := { st with workdir := wd₂, index := new_tree }
            if (get_branch_commit st name).isSome then
              some (update_head st₁ ("refs/heads/" ++ name) false, true)
            else some (update_head st₁ commit_sha1 true, true)

/-! ## Merge (`commands.py`, `merge`) -/

/-- One iteration of the per-path merge loop: `merged_tree` starts as a copy
of the HEAD tree; `b == h or h == o` takes a present `o` (Python truthiness)
and otherwise leaves the HEAD copy untouched; a remaining `b != o` is a
conflict. -/
def merge_path_rule (base_tree head_tree other_tree : List (String × String))
    (acc : List (String × String) × List String) (path : String) :
    List (String × String) × List String :=
  let b := dictGet base_tree path
  let h := dictGet head_tree path
  let o := dictGet other_tree path
  if b = h ∨ h = o then
    match o with
    | some ov => if ov = "" then acc else (dictSet acc.1 path ov, acc.2)
    | none => acc
  else if b ≠ o then (acc.1, acc.2 ++ [path])
  else acc

/-- `sorted(list(all_files))`: the sorted union of the three key sets. -/
def merge_paths (base_tree head_tree other_tree : List (String × String)) : List String :=
  sortKeys (dedupKeys (dictKeys base_tree ++ dictKeys head_tree ++ dictKeys other_tree))

/-- The whole per-path loop: the merged tree and the conflict list. -/
def merge_walk (base_tree head_tree other_tree : List (String × String)) :
    List (String × String) × List String :=
  (merge_paths base_tree head_tree other_tree).foldl
    (merge_path_rule base_tree head_tree other_tree) (head_tree, [])

/-- The condition under which the per-path loop overwrites the merged tree
with the other branch's id: `b == h or h == o` and `o` truthy. -/
def mergeTakes (base_tree head_tree other_tree : List (String × String)) (p : String) : Bool :=
  (decide (dictGet base_tree p = dictGet head_tree p) ||
    decide (dictGet head_tree p = dictGet other_tree p)) &&
  optTruthy (dictGet other_tree p)

/-- The condition under which the per-path loop records a conflict. -/
def mergeConflict (base_tree head_tree other_tree : List (String × String)) (p : String) : Bool :=
  !(decide (dictGet base_tree p = dictGet head_tree p) ||
    decide (dictGet head_tree p = dictGet other_tree p)) &&
  !(decide (dictGet base_tree p = dictGet other_tree p))

/-- The conflict marker file content for one path. -/
def conflictMarker (branch_name head_content other_content : String) : String :=
  "<<<<<<< HEAD\n" ++ head_content ++ "\n=======\n" ++ other_content ++
    "\n>>>>>>> " ++ branch_name ++ "\n"

/-- The conflict loop of `merge`: write a marker file per conflicted path,
hash it as a blob, put the blob id into the merged tree.  `none`: the
`head_tree[path]` lookup raised `KeyError` (a delete/modify conflict) or a
blob body was missing. -/
def write_conflicts (branch_name : String) (head_tree other_tree : List (String × String)) :
    Repo → List (String × String) → List String → Option (Repo × List (String × String))
  | st, merged, [] => some (st, merged)
  | st, merged, path :: rest =>
      match dictGet head_tree path with
      | none => none
      | some hsha =>
          match dictGet other_tree path with
          | none => none
          | some osha =>
              match read_object st hsha, read_object st osha with
              | some (_, hc), some (_, oc) =>
                  let conflict_content := conflictMarker branch_name hc oc
                  let st₁ := { st with workdir := dictSet st.workdir path conflict_content }
                  let (bsha, st₂) := hash_object st₁ conflict_content "blob"
                  write_conflicts branch_name head_tree other_tree st₂
                    (dictSet merged path bsha) rest
              | _, _ => none

/-- `merge(branch_name)`: up-to-date checks, fast-forward via `checkout`,
else three-way merge from the common ancestor.  On the success path with a
detached `HEAD` the branch write lands on a stray file `.pygit/<id>` that
nothing ever reads; it is dropped from the model. -/
def merge (st : Repo) (branch_name : String) : Option (Repo × Bool) :=
  let head_commit := get_head_commit st
  let other? := get_branch_commit st branch_name
  if ¬ optTruthy other? ∨ head_commit = other? then some (st, true)
  else
    match other? with
    | none => some (st, true)
    | some other_commit =>
        let head_history := get_full_history_set st head_commit
        if other_commit ∈ head_history then some (st, true)
        else
          let other_history := get_full_history_set st (some other_commit)
          if (match head_commit with
              | some h => decide (h ∈ other_history)
              | none => false) then
            checkout st branch_name
          else
            match find_common_ancestor st head_commit other_commit with
            | none => some (st, false)
            | some base_commit =>
                match head_commit with
                | none => none
                | some h =>
                    let base_tree := get_tree_contents st (get_commit_tree st base_commit)
                    let head_tree := get_tree_contents st (get_commit_tree st h)
                    let other_tree := get_tree_contents st (get_commit_tree st other_commit)
                    let (merged_tree, conflicts) := merge_walk base_tree head_tree other_tree
                    if conflicts ≠ [] then
                      match write_conflicts branch_name head_tree other_tree st
                          merged_tree conflicts with
                      | none => none
                      | some (st₁, merged') => some ({ st₁ with index := merged' }, false)
                    else
                      let (merged_tree_sha, st₁) :=
                        hash_object st (jsonDumps merged_tree) "tree"
                      let (merge_commit_sha, st₂) := _create_commit st₁
                        ("Merge branch '" ++ branch_name ++ "'") merged_tree_sha
                        [h, other_commit]
                      let head_ref := get_head_ref st₂
                      let st₃ :=
                        if pyStartswith head_ref "refs/heads/" then
                          { st₂ with
                            branches := dictSet st₂.branches (pyDrop head_ref 11) merge_commit_sha }
                        else st₂
                      match checkout st₃ (lastComponent (get_head_ref st₃)) with
                      | none => none
                      | some (st₄, _) => some (st₄, true)

/-! ## Stash (`commands.py`, `stash`) -/

/-- `stash push`: hash a synthetic working-dir tree over the index's paths,
hash the index tree, skip when both match HEAD's tree, else record a stash
commit `tree = index snapshot, parents = [HEAD, workdir snapshot]`, prepend
it to the stash list, and reset to HEAD via `checkout`. -/
def stash_push (st : Repo) : Option (Repo × Bool) :=
  let head_commit := get_head_commit st
  let index_tree := st.index
  let (workdir_tree, st₁) := index_tree.foldl
    (fun (acc : List (String × String) × Repo) e =>
      match dictGet acc.2.workdir e.1 with
      | some content =>
          let (sha1, st') := hash_object acc.2 content "blob"
          (acc.1 ++ [(e.1, sha1)], st')
      | none => acc)
    ([], st)
  let (index_tree_sha, st₂) := hash_object st₁ (jsonDumps index_tree) "tree"
  let (workdir_tree_sha, st₃) := hash_object st₂ (jsonDumps workdir_tree) "tree"
  match head_commit with
  | none => none
  | some hc =>
      if get_commit_tree st₃ hc = some index_tree_sha ∧ dictEqb workdir_tree index_tree then
        some (st₃, true)
      else
        let message := "Stash on " ++ get_head_ref st₃ ++ ": WIP"
        let (stash_hash, st₄) := _create_commit st₃ message index_tree_sha
          [hc, workdir_tree_sha]
        let st₅ := { st₄ with stashes := stash_hash :: st₄.stashes }
        match checkout st₅ hc with
        | none => none
        | some (st₆, _) =>
            some ({ st₆ with index := get_tree_contents st₆ (get_commit_tree st₆ hc) }, true)

/-- `stash pop` / `stash apply`: read stash[0], parse its `tree ` line
(the index snapshot) and its second `parent ` line (the workdir snapshot),
write the index snapshot into the index, then `checkout(HEAD commit)`.
The parsed `workdir_tree` is never used by the Python code.  On `pop` the
entry is removed afterwards. -/
def stash_pop_apply (st : Repo) (isPop : Bool) : Option (Repo × Bool) :=
  match st.stashes with
  | [] => some (st, false)
  | stash_hash :: rest =>
      match read_object st stash_hash with
      | none => none
      | some (_, content) =>
          let lines := pySplit content '\n'
          match (pySplit (lines.getD 0 "") ' ').get? 1 with
          | none => none
          | some index_tree_sha =>
              match ((lines.filter (fun l => pyStartswith l "parent ")).map
                  (fun l => (pySplit l ' ').getD 1 "")).get? 1 with
              | none => none
              | some workdir_tree_sha =>
                  let index_tree := get_tree_contents st (some index_tree_sha)
                  let workdir_tree := get_tree_contents st (some workdir_tree_sha)
                  let st₁ := { st with index := index_tree }
                  match get_head_commit st₁ with
                  | none => none
                  | some hcs =>
                      match checkout st₁ hcs with
                      | none => none
                      | some (st₂, _) =>
                          some ((if isPop then { st₂ with stashes := rest } else st₂), true)

/-! ## Derived observation maps and scenario states -/

/-- The tree object id `commit` would give an index state (used for the
tree-determinism property). -/
def tree_object_id (m : List (String × String)) : String :=
  hashId "tree" (jsonDumps m)

/-- The working directory viewed as a path-to-blob-id mapping (each file
hashed the way `status`/`stash` hash workdir files). -/
def workdir_id_map (st : Repo) : List (String × String) :=
  st.workdir.map (fun e => (e.1, hashId "blob" e.2))

/-- The freshly initialized repository (`init`): `HEAD` attached to
`refs/heads/main`, everything else empty. -/
def initRepo (now : String) : Repo :=
  ⟨[], "ref: refs/heads/main", [], [], [], [], [], [], now⟩

/-- Create or overwrite a working-directory file (the test scenarios'
`open(p, "w").write(c)`). -/
def writeFile (st : Repo) (p c : String) : Repo :=
  { st with workdir := dictSet st.workdir p c }

/-- Extract the repository from a command result, with a fallback for the
crash case (never taken in the scenarios below). -/
def coGet (r : Option (Repo × Bool)) (fallback : Repo) : Repo :=
  match r with
  | some (s, _) => s
  | none => fallback

/-- Committed baseline: `init`, write `a.txt` = "x", `add`, `commit`. -/
def baseRepo : Repo :=
  (commit ["-m", "one"]
    (add (writeFile (initRepo "2024-01-01T00:00:00") "a.txt" "x") "a.txt").1).1

/-- The stash scenario (spec S6): the committed baseline with `a.txt`
modified on disk to "y". -/
def stashScenario : Repo := writeFile baseRepo "a.txt" "y"

/-- A fast-forward setup: `feat` is one commit ahead of `main`, and `main`
is checked out. -/
def ffRepo : Repo :=
  let st₂ := (branch baseRepo "feat" none).1
  let st₃ := coGet (checkout st₂ "feat") st₂
  let st₄ := (commit ["-m", "two"] ((add (writeFile st₃ "a.txt" "y") "a.txt").1)).1
  coGet (checkout st₄ "main") st₄

/-- The baseline plus an untracked working-directory file `u.txt`. -/
def untrackedRepo : Repo := writeFile baseRepo "u.txt" "u"

/-- A two-file baseline (so a deletion commit is not an empty-index no-op). -/
def base2Repo : Repo :=
  (commit ["-m", "base2"] (add (writeFile baseRepo "keep.txt" "k") "keep.txt").1).1

/-- A delete/modify merge setup: `main` deleted `a.txt`, `branch2` modified
it, `main` is checked out. -/
def delModRepo : Repo :=
  let st₁ := (branch base2Repo "branch2" none).1
  let st₂ := (commit ["-m", "del"] (rm st₁ "a.txt" .removed).1).1
  let st₃ := coGet (checkout st₂ "branch2") st₂
  let st₄ := (commit ["-m", "mod"] ((add (writeFile st₃ "a.txt" "z") "a.txt").1)).1
  coGet (checkout st₄ "main") st₄

/-- The base tree of the `delModRepo` merge (via the code's own ancestor
computation). -/
def dmBaseTree : List (String × String) :=
  get_tree_contents delModRepo (get_commit_tree delModRepo
    ((find_common_ancestor delModRepo (get_head_commit delModRepo)
      ((get_branch_commit delModRepo "branch2").getD "")).getD ""))

/-- The HEAD tree of the `delModRepo` merge. -/
def dmHeadTree : List (String × String) :=
  get_tree_contents delModRepo (get_commit_tree delModRepo
    ((get_head_commit delModRepo).getD ""))

/-- The other-branch tree of the `delModRepo` merge. -/
def dmOtherTree : List (String × String) :=
  get_tree_contents delModRepo (get_commit_tree delModRepo
    ((get_branch_commit delModRepo "branch2").getD ""))

/-- A content/content conflict setup: both branches changed `a.txt` from the
baseline, `main` is checked out. -/
def ccRepo : Repo :=
  let st₁ := (branch baseRepo "branch2" none).1
  let st₂ := (commit ["-m", "m1"] ((add (writeFile st₁ "a.txt" "A1") "a.txt").1)).1
  let st₃ := coGet (checkout st₂ "branch2") st₂
  let st₄ := (commit ["-m", "m2"] ((add (writeFile st₃ "a.txt" "A2") "a.txt").1)).1
  coGet (checkout st₄ "main") st₄

end PyGit

/-! # Proofs -/

namespace PyGit

/-! ## Dictionary lemmas -/

theorem dictGet_dictSet_self (d : List (String × α)) (k : String) (v : α) :
    dictGet (dictSet d k v) k = some v := by
  induction d with
  | nil => simp [dictGet, dictSet]
  | cons e rest ih =>
      obtain ⟨k', v'⟩ := e
      by_cases h : k' = k
      · simp [dictGet, dictSet, h]
      · simp [dictGet, dictSet, h, ih]

theorem dictGet_dictSet_ne (d : List (String × α)) (k q : String) (v : α) (h : q ≠ k) :
    dictGet (dictSet d k v) q = dictGet d q := by
  have hkq : ¬ k = q := fun hh => h hh.symm
  induction d with
  | nil => simp [dictGet, dictSet, hkq]
  | cons e rest ih =>
      obtain ⟨k', v'⟩ := e
      by_cases he : k' = k
      · subst he
        simp [dictGet, dictSet, hkq]
      · by_cases hq : k' = q <;> simp [dictGet, dictSet, he, hq, ih, h]

theorem dictGet_eq_none_of_not_mem (d : List (String × α)) (k : String)
    (h : k ∉ dictKeys d) : dictGet d k = none := by
  induction d with
  | nil => simp [dictGet]
  | cons e rest ih =>
      obtain ⟨k', v'⟩ := e
      simp only [dictKeys, List.map_cons, List.mem_cons] at h
      push_neg at h
      simp [dictGet, Ne.symm h.1, ih (by simpa [dictKeys] using h.2)]

theorem dictGet_dictDel_self (d : List (String × α)) (k : String)
    (h : (dictKeys d).Nodup) : dictGet (dictDel d k) k = none := by
  induction d with
  | nil => simp [dictGet, dictDel]
  | cons e rest ih =>
      obtain ⟨k', v'⟩ := e
      simp only [dictKeys, List.map_cons, List.nodup_cons] at h
      by_cases he : k' = k
      · subst he
        simp only [dictDel, if_pos rfl]
        exact dictGet_eq_none_of_not_mem rest k' (by
          simpa [dictKeys] using h.1)
      · simp [dictDel, dictGet, he, ih (by simpa [dictKeys] using h.2)]

theorem dictGet_dictDel_ne (d : List (String × α)) (k q : String) (h : q ≠ k) :
    dictGet (dictDel d k) q = dictGet d q := by
  induction d with
  | nil => simp [dictDel]
  | cons e rest ih =>
      obtain ⟨k', v'⟩ := e
      by_cases he : k' = k
      · subst he
        have : ¬ k' = q := fun hh => h (hh.symm)
        simp [dictDel, dictGet, this]
      · by_cases hq : k' = q <;> simp [dictDel, dictGet, he, hq, ih, h]

theorem mem_dictKeys_iff_isSome (d : List (String × α)) (k : String) :
    k ∈ dictKeys d ↔ (dictGet d k).isSome := by
  induction d with
  | nil => simp [dictKeys, dictGet]
  | cons e rest ih =>
      obtain ⟨k', v'⟩ := e
      by_cases h : k' = k
      · simp [dictKeys, dictGet, h]
      · have : ¬ k = k' := fun hh => h hh.symm
        simpa [dictKeys, dictGet, h, this] using ih

theorem dictGet_eq_some_of_mem (d : List (String × α)) (p : String) (v : α)
    (hnd : (dictKeys d).Nodup) (hm : (p, v) ∈ d) : dictGet d p = some v := by
  induction d with
  | nil => simp at hm
  | cons e rest ih =>
      obtain ⟨k', v'⟩ := e
      simp only [dictKeys, List.map_cons, List.nodup_cons] at hnd
      rcases List.mem_cons.mp hm with h | h
      · cases h
        simp [dictGet]
      · have hne : k' ≠ p := by
          intro hh
          subst hh
          exact hnd.1 (by
            have := List.mem_map_of_mem Prod.fst h
            simpa [dictKeys] using this)
        simp [dictGet, hne, ih hnd.2 h]

theorem mem_of_dictGet_eq_some (d : List (String × α)) (p : String) (v : α)
    (h : dictGet d p = some v) : (p, v) ∈ d := by
  induction d with
  | nil => simp [dictGet] at h
  | cons e rest ih =>
      obtain ⟨k', v'⟩ := e
      by_cases he : k' = p
      · subst he
        have hv : v' = v := by simpa [dictGet] using h
        subst hv
        exact List.mem_cons_self _ _
      · exact List.mem_cons_of_mem _ (ih (by simpa [dictGet, he] using h))

/-! ## Sorting and dedup lemmas (tree-id determinism) -/

theorem strext {a b : String} (h : a.data = b.data) : a = b := by
  cases a
  cases b
  exact congrArg String.mk h

theorem charListLe_total (l₁ l₂ : List Char) :
    charListLe l₁ l₂ = true ∨ charListLe l₂ l₁ = true := by
  induction l₁ generalizing l₂ with
  | nil => left; simp [charListLe]
  | cons c₁ t₁ ih =>
      cases l₂ with
      | nil => right; simp [charListLe]
      | cons c₂ t₂ =>
          by_cases hc : c₁ = c₂
          · subst hc
            simpa [charListLe] using ih t₂
          · rcases lt_trichotomy c₁ c₂ with hlt | heq | hgt
            · left; simp [charListLe, hc, hlt]
            · exact absurd heq hc
            · right
              have hc' : ¬ c₂ = c₁ := fun hh => hc hh.symm
              simp [charListLe, hc', hgt]

theorem charListLe_antisymm (l₁ l₂ : List Char)
    (h₁ : charListLe l₁ l₂ = true) (h₂ : charListLe l₂ l₁ = true) : l₁ = l₂ := by
  induction l₁ generalizing l₂ with
  | nil =>
      cases l₂ with
      | nil => rfl
      | cons c₂ t₂ => simp [charListLe] at h₂
  | cons c₁ t₁ ih =>
      cases l₂ with
      | nil => simp [charListLe] at h₁
      | cons c₂ t₂ =>
          by_cases hc : c₁ = c₂
          · subst hc
            simp only [charListLe, if_pos rfl] at h₁ h₂
            exact congrArg (c₁ :: ·) (ih t₂ h₁ h₂)
          · have hc' : ¬ c₂ = c₁ := fun hh => hc hh.symm
            simp only [charListLe, if_neg hc, if_neg hc', decide_eq_true_eq] at h₁ h₂
            exact absurd h₂ (lt_asymm h₁)

theorem charListLe_trans (l₁ l₂ l₃ : List Char)
    (h₁ : charListLe l₁ l₂ = true) (h₂ : charListLe l₂ l₃ = true) :
    charListLe l₁ l₃ = true := by
  induction l₁ generalizing l₂ l₃ with
  | nil => simp [charListLe]
  | cons c₁ t₁ ih =>
      cases l₂ with
      | nil => simp [charListLe] at h₁
      | cons c₂ t₂ =>
          cases l₃ with
          | nil => simp [charListLe] at h₂
          | cons c₃ t₃ =>
              by_cases h12 : c₁ = c₂ <;> by_cases h23 : c₂ = c₃
              · subst h12; subst h23
                simp only [charListLe, if_pos rfl] at h₁ h₂ ⊢
                exact ih t₂ t₃ h₁ h₂
              · subst h12
                simpa [charListLe, h23] using h₂
              · subst h23
                simpa [charListLe, h12] using h₁
              · simp only [charListLe, if_neg h12, if_neg h23, decide_eq_true_eq] at h₁ h₂
                have h13 : c₁ < c₃ := lt_trans h₁ h₂
                have hne : ¬ c₁ = c₃ := ne_of_lt h13
                simp [charListLe, hne, h13]

theorem strLe_total (a b : String) : strLe a b = true ∨ strLe b a = true :=
  charListLe_total a.data b.data

theorem strLe_antisymm {a b : String} (h₁ : strLe a b = true) (h₂ : strLe b a = true) :
    a = b :=
  strext (charListLe_antisymm a.data b.data h₁ h₂)

theorem strLe_trans {a b c : String} (h₁ : strLe a b = true) (h₂ : strLe b c = true) :
    strLe a c = true :=
  charListLe_trans a.data b.data c.data h₁ h₂

theorem mem_orderedInsertKey (k x : String) (l : List String) :
    x ∈ orderedInsertKey k l ↔ x = k ∨ x ∈ l := by
  induction l with
  | nil => simp [orderedInsertKey]
  | cons y ys ih =>
      by_cases h : strLe k y
      · simp [orderedInsertKey, h]
      · simp only [orderedInsertKey, if_neg h, List.mem_cons, ih]
        tauto

theorem mem_sortKeys (x : String) (l : List String) : x ∈ sortKeys l ↔ x ∈ l := by
  induction l with
  | nil => simp [sortKeys]
  | cons y ys ih => simp [sortKeys, mem_orderedInsertKey, ih]

theorem nodup_orderedInsertKey (k : String) (l : List String)
    (hk : k ∉ l) (hl : l.Nodup) : (orderedInsertKey k l).Nodup := by
  induction l with
  | nil => simp [orderedInsertKey]
  | cons y ys ih =>
      rw [List.nodup_cons] at hl
      by_cases h : strLe k y
      · simp only [orderedInsertKey, if_pos h, List.nodup_cons]
        exact ⟨by simpa using hk, hl⟩
      · simp only [orderedInsertKey, if_neg h, List.nodup_cons, mem_orderedInsertKey]
        refine ⟨?_, ih (fun hh => hk (List.mem_cons_of_mem y hh)) hl.2⟩
        rintro (rfl | hy)
        · exact hk (List.mem_cons_self y ys)
        · exact hl.1 hy

theorem nodup_sortKeys (l : List String) (h : l.Nodup) : (sortKeys l).Nodup := by
  induction l with
  | nil => simp [sortKeys]
  | cons y ys ih =>
      rw [List.nodup_cons] at h
      exact nodup_orderedInsertKey y (sortKeys ys)
        (fun hh => h.1 ((mem_sortKeys y ys).mp hh)) (ih h.2)

theorem sorted_orderedInsertKey (k : String) (l : List String)
    (h : l.Pairwise (fun a b => strLe a b = true)) :
    (orderedInsertKey k l).Pairwise (fun a b => strLe a b = true) := by
  induction l with
  | nil => simp [orderedInsertKey]
  | cons y ys ih =>
      rw [List.pairwise_cons] at h
      by_cases hky : strLe k y
      · simp only [orderedInsertKey, if_pos hky, List.pairwise_cons]
        refine ⟨?_, h⟩
        intro b hb
        rcases List.mem_cons.mp hb with rfl | hb
        · exact hky
        · exact strLe_trans hky (h.1 b hb)
      · simp only [orderedInsertKey, if_neg hky, List.pairwise_cons]
        refine ⟨?_, ih h.2⟩
        intro b hb
        rcases (mem_orderedInsertKey k b ys).mp hb with rfl | hb
        · rcases strLe_total b y with hh | hh
          · exact absurd hh hky
          · exact hh
        · exact h.1 b hb

theorem sorted_sortKeys (l : List String) :
    (sortKeys l).Pairwise (fun a b => strLe a b = true) := by
  induction l with
  | nil => simp [sortKeys]
  | cons y ys ih => exact sorted_orderedInsertKey y (sortKeys ys) ih

theorem sorted_nodup_ext (l₁ : List String)
    (s₁ : l₁.Pairwise (fun a b => strLe a b = true))
    (n₁ : l₁.Nodup) :
    ∀ l₂, l₂.Pairwise (fun a b => strLe a b = true) → l₂.Nodup →
      (∀ x, x ∈ l₁ ↔ x ∈ l₂) → l₁ = l₂ := by
  induction l₁ with
  | nil =>
      intro l₂ _ _ h
      cases l₂ with
      | nil => rfl
      | cons b t₂ => exact absurd ((h b).mpr (List.mem_cons_self b t₂)) (by simp)
  | cons a t₁ ih =>
      intro l₂ s₂ n₂ h
      rw [List.pairwise_cons] at s₁
      rw [List.nodup_cons] at n₁
      cases l₂ with
      | nil => exact absurd ((h a).mp (List.mem_cons_self a t₁)) (by simp)
      | cons b t₂ =>
          rw [List.pairwise_cons] at s₂
          rw [List.nodup_cons] at n₂
          have hab : a = b := by
            rcases List.mem_cons.mp ((h a).mp (List.mem_cons_self a t₁)) with h' | h'
            · exact h'
            · rcases List.mem_cons.mp ((h b).mpr (List.mem_cons_self b t₂)) with h'' | h''
              · exact h''.symm
              · exact strLe_antisymm (s₁.1 b h'') (s₂.1 a h')
          subst hab
          have ht : ∀ x, x ∈ t₁ ↔ x ∈ t₂ := by
            intro x
            constructor
            · intro hx
              rcases List.mem_cons.mp ((h x).mp (List.mem_cons_of_mem a hx)) with rfl | hh
              · exact absurd hx n₁.1
              · exact hh
            · intro hx
              rcases List.mem_cons.mp ((h x).mpr (List.mem_cons_of_mem a hx)) with rfl | hh
              · exact absurd hx n₂.1
              · exact hh
          exact congrArg (a :: ·) (ih s₁.2 n₁.2 t₂ s₂.2 n₂.2 ht)

theorem mem_dedupAcc (x : String) (seen l : List String) :
    x ∈ dedupAcc seen l ↔ x ∈ l ∧ x ∉ seen := by
  induction l generalizing seen with
  | nil => simp [dedupAcc]
  | cons y ys ih =>
      by_cases hy : y ∈ seen
      · rw [dedupAcc, if_pos hy, ih]
        constructor
        · rintro ⟨h₁, h₂⟩
          exact ⟨List.mem_cons_of_mem y h₁, h₂⟩
        · rintro ⟨h₁, h₂⟩
          rcases List.mem_cons.mp h₁ with rfl | h₁
          · exact absurd hy h₂
          · exact ⟨h₁, h₂⟩
      · rw [dedupAcc, if_neg hy]
        constructor
        · intro hm
          rcases List.mem_cons.mp hm with rfl | hm
          · exact ⟨List.mem_cons_self x ys, hy⟩
          · obtain ⟨h₁, h₂⟩ := (ih (y :: seen)).mp hm
            exact ⟨List.mem_cons_of_mem y h₁,
              fun hh => h₂ (List.mem_cons_of_mem y hh)⟩
        · rintro ⟨h₁, h₂⟩
          rcases List.mem_cons.mp h₁ with rfl | h₁
          · exact List.mem_cons_self x _
          · by_cases hxy : x = y
            · subst hxy
              exact List.mem_cons_self x _
            · refine List.mem_cons_of_mem y ((ih (y :: seen)).mpr ⟨h₁, ?_⟩)
              intro hh
              rcases List.mem_cons.mp hh with hh | hh
              · exact hxy hh
              · exact h₂ hh

theorem nodup_dedupAcc (seen l : List String) : (dedupAcc seen l).Nodup := by
  induction l generalizing seen with
  | nil => simp [dedupAcc]
  | cons y ys ih =>
      by_cases hy : y ∈ seen
      · rw [dedupAcc, if_pos hy]
        exact ih seen
      · rw [dedupAcc, if_neg hy, List.nodup_cons]
        refine ⟨?_, ih (y :: seen)⟩
        rw [mem_dedupAcc]
        rintro ⟨_, h₂⟩
        exact h₂ (List.mem_cons_self y seen)

theorem mem_dedupKeys (x : String) (l : List String) : x ∈ dedupKeys l ↔ x ∈ l := by
  rw [dedupKeys, mem_dedupAcc]
  simp

theorem nodup_dedupKeys (l : List String) : (dedupKeys l).Nodup :=
  nodup_dedupAcc [] l

theorem sortedKeys_eq_of_dictGet_eq (m₁ m₂ : List (String × String))
    (h : ∀ k, dictGet m₁ k = dictGet m₂ k) : sortedKeys m₁ = sortedKeys m₂ := by
  refine sorted_nodup_ext (sortedKeys m₁) ?_ ?_ (sortedKeys m₂) ?_ ?_ ?_
  · exact sorted_sortKeys _
  · exact nodup_sortKeys _ (nodup_dedupKeys _)
  · exact sorted_sortKeys _
  · exact nodup_sortKeys _ (nodup_dedupKeys _)
  · intro x
    rw [sortedKeys, sortedKeys, mem_sortKeys, mem_sortKeys, mem_dedupKeys,
      mem_dedupKeys, mem_dictKeys_iff_isSome, mem_dictKeys_iff_isSome, h x]

theorem jsonDumps_eq_of_dictGet_eq (m₁ m₂ : List (String × String))
    (h : ∀ k, dictGet m₁ k = dictGet m₂ k) : jsonDumps m₁ = jsonDumps m₂ := by
  rw [jsonDumps, jsonDumps, sortedKeys_eq_of_dictGet_eq m₁ m₂ h]
  have hmap :
      (sortedKeys m₂).map (fun k =>
        "\"" ++ jsonEsc k ++ "\": \"" ++ jsonEsc ((dictGet m₁ k).getD "") ++ "\"") =
      (sortedKeys m₂).map (fun k =>
        "\"" ++ jsonEsc k ++ "\": \"" ++ jsonEsc ((dictGet m₂ k).getD "") ++ "\"") :=
    List.map_congr_left (fun k _ => by rw [h k])
  rw [hmap]

/-- Claim C8: tree id determinism.  Two index states equal as
path-to-blob-id mappings (whatever their insertion order) serialize and
hash to the same tree object id. -/
theorem tree_id_determinism (m₁ m₂ : List (String × String))
    (h : ∀ k, dictGet m₁ k = dictGet m₂ k) :
    tree_object_id m₁ = tree_object_id m₂ := by
  rw [tree_object_id, tree_object_id, jsonDumps_eq_of_dictGet_eq m₁ m₂ h]

/-- Witness for C8 at two concrete index states with opposite insertion
orders. -/
theorem tree_id_determinism_witness :
    tree_object_id [("a.txt", "1111"), ("b.txt", "2222")] =
      tree_object_id [("b.txt", "2222"), ("a.txt", "1111")] :=
  tree_id_determinism [("a.txt", "1111"), ("b.txt", "2222")]
    [("b.txt", "2222"), ("a.txt", "1111")]
    (by
      intro k
      by_cases h₁ : "a.txt" = k
      · by_cases h₂ : "b.txt" = k
        · exact absurd (h₁.trans h₂.symm) (by decide)
        · simp [dictGet, h₁, h₂]
      · by_cases h₂ : "b.txt" = k <;> simp [dictGet, h₁, h₂])

/-! ## Claim C9: empty-index commit is a no-op -/

/-- Claim C9: `commit -m M` with an empty index returns before hashing:
no object is written, `HEAD`, every ref, the index — the whole state — is
unchanged, and the command exits successfully. -/
theorem commit_empty_index_noop (st : Repo) (m : String) (h : st.index = []) :
    commit ["-m", m] st = (st, true) := by
  unfold commit
  rw [h]
  simp

/-- Witness for C9 on a concrete repository with a non-trivial store and an
empty index. -/
theorem commit_empty_index_noop_witness :
    commit ["-m", "msg"] (initRepo "2024-01-01T00:00:00") =
      (initRepo "2024-01-01T00:00:00", true) :=
  commit_empty_index_noop (initRepo "2024-01-01T00:00:00") "msg" (by rfl)

/-! ## Claim C10: `rm` is not atomic on I/O failure -/

/-- Claim C10: when the path is staged and the working-tree deletion fails
with an `OSError` other than file-not-found, `rm` reports failure, yet the
index has already been rewritten without the path (and the working tree is
untouched); the removal is not rolled back. -/
theorem rm_not_atomic_on_os_error (st : Repo) (p sha : String)
    (hidx : dictGet st.index p = some sha)
    (hnd : (dictKeys st.index).Nodup) :
    (rm st p .osError).2 = false ∧
    dictGet (rm st p .osError).1.index p = none ∧
    (∀ q, q ≠ p → dictGet (rm st p .osError).1.index q = dictGet st.index q) ∧
    (rm st p .osError).1.workdir = st.workdir := by
  have hsome : (dictGet st.index p).isNone = false := by rw [hidx]; rfl
  refine ⟨?_, ?_, ?_, ?_⟩
  · simp [rm, hsome]
  · simp [rm, hsome, dictGet_dictDel_self st.index p hnd]
  · intro q hq
    simp [rm, hsome, dictGet_dictDel_ne st.index p q hq]
  · simp [rm, hsome]

/-- Witness for C10 on the committed baseline: removing `a.txt` with a
failing `os.remove` drops the index entry yet reports failure. -/
theorem rm_not_atomic_on_os_error_witness :
    (rm baseRepo "a.txt" .osError).2 = false ∧
    dictGet (rm baseRepo "a.txt" .osError).1.index "a.txt" = none ∧
    (∀ q, q ≠ "a.txt" →
      dictGet (rm baseRepo "a.txt" .osError).1.index q = dictGet baseRepo.index q) ∧
    (rm baseRepo "a.txt" .osError).1.workdir = baseRepo.workdir :=
  rm_not_atomic_on_os_error baseRepo "a.txt"
    "c1b0730e0133447badcfd47fd144e254807b06e1" (by decide) (by decide)

/-! ## Claim C4: object store round trip -/

theorem digitChar_range (m : Nat) (hm : m < 10) :
    48 ≤ (Char.ofNat (48 + m)).toNat ∧ (Char.ofNat (48 + m)).toNat ≤ 57 := by
  interval_cases m <;> decide

theorem natDigitsAux_range (fuel : Nat) :
    ∀ n c, c ∈ natDigitsAux fuel n → 48 ≤ c.toNat ∧ c.toNat ≤ 57 := by
  induction fuel with
  | zero => intro n c hc; simp [natDigitsAux] at hc
  | succ fuel ih =>
      intro n c hc
      rw [natDigitsAux] at hc
      by_cases h : n < 10
      · rw [if_pos h] at hc
        rcases List.mem_singleton.mp hc with rfl
        exact digitChar_range n h
      · rw [if_neg h] at hc
        rcases List.mem_append.mp hc with hc | hc
        · exact ih (n / 10) c hc
        · rcases List.mem_singleton.mp hc with rfl
          exact digitChar_range (n % 10) (Nat.mod_lt n (by omega))

theorem natDigitChars_range (n : Nat) (c : Char) (hc : c ∈ natDigitChars n) :
    48 ≤ c.toNat ∧ c.toNat ≤ 57 :=
  natDigitsAux_range (n + 1) n c hc

theorem utf8List_ascii (l : List Char) (h : ∀ c ∈ l, c.toNat < 128) :
    l.foldr (fun c acc => utf8Char c ++ acc) [] = l.map Char.toNat := by
  induction l with
  | nil => rfl
  | cons c cs ih =>
      have hc := h c (List.mem_cons_self c cs)
      simp only [List.foldr_cons, List.map_cons,
        ih (fun x hx => h x (List.mem_cons_of_mem c hx))]
      rw [utf8Char]
      simp [hc]

theorem utf8Bytes_ascii (s : String) (h : ∀ c ∈ s.data, c.toNat < 128) :
    utf8Bytes s = s.data.map Char.toNat :=
  utf8List_ascii s.data h

theorem utf8DecAux_ascii (l : List Char) (h : ∀ c ∈ l, c.toNat < 128) :
    utf8DecAux (l.length + 1) (l.map Char.toNat) = some l := by
  induction l with
  | nil => rfl
  | cons c cs ih =>
      have hc := h c (List.mem_cons_self c cs)
      have ihh := ih (fun x hx => h x (List.mem_cons_of_mem c hx))
      rw [List.map_cons, List.length_cons, utf8DecAux, if_pos hc, ihh, utf8DecPack,
        Char.ofNat_toNat]

theorem utf8Dec_ascii (l : List Char) (h : ∀ c ∈ l, c.toNat < 128) :
    utf8Dec (l.map Char.toNat) = some l := by
  rw [utf8Dec, List.length_map]
  exact utf8DecAux_ascii l h

theorem splitAtZero_append (hdr data : Bytes) (h : ∀ b ∈ hdr, b ≠ 0) :
    Objects.splitAtZero (hdr ++ 0 :: data) = some (hdr, data) := by
  induction hdr with
  | nil => simp [Objects.splitAtZero]
  | cons b rest ih =>
      have hb := h b (List.mem_cons_self b rest)
      rw [List.cons_append, Objects.splitAtZero, if_neg hb,
        ih (fun x hx => h x (List.mem_cons_of_mem b hx))]

theorem splitOnChar_of_not_mem (sep : Char) (l : List Char) (h : sep ∉ l) :
    splitOnChar sep l = [l] := by
  induction l with
  | nil => rfl
  | cons c cs ih =>
      have hc : ¬ c = sep := fun hh => h (hh ▸ List.mem_cons_self c cs)
      rw [splitOnChar]
      simp only [if_neg hc, ih (fun hh => h (List.mem_cons_of_mem c hh))]

theorem splitOnChar_ne_nil (sep : Char) (l : List Char) : splitOnChar sep l ≠ [] := by
  cases l with
  | nil => simp [splitOnChar]
  | cons c cs =>
      rw [splitOnChar]
      by_cases h : c = sep
      · simp [h]
      · cases hr : splitOnChar sep cs with
        | nil => simp [h, hr]
        | cons a t => simp [h, hr]

theorem splitOnChar_append (sep : Char) (xs ys : List Char) (h : sep ∉ xs) :
    splitOnChar sep (xs ++ sep :: ys) = xs :: splitOnChar sep ys := by
  induction xs with
  | nil => simp [splitOnChar]
  | cons c cs ih =>
      have hc : ¬ c = sep := fun hh => h (hh ▸ List.mem_cons_self c cs)
      rw [List.cons_append, splitOnChar]
      simp only [if_neg hc, ih (fun hh => h (List.mem_cons_of_mem c hh))]

theorem string_data_append (a b : String) : (a ++ b).data = a.data ++ b.data := by
  cases a
  cases b
  rfl

theorem string_mk_data (s : String) : String.mk s.data = s := by
  cases s
  rfl

theorem dictGet_append_of_none (d₁ d₂ : List (String × α)) (k : String)
    (h : dictGet d₁ k = none) : dictGet (d₁ ++ d₂) k = dictGet d₂ k := by
  induction d₁ with
  | nil => rfl
  | cons e rest ih =>
      obtain ⟨k', v'⟩ := e
      by_cases he : k' = k
      · simp [dictGet, he] at h
      · simp only [dictGet, if_neg he] at h
        simpa [dictGet, he] using ih h

/-- The header characters `<kind> <len>` of a framed object. -/
theorem frame_header_chars (kind : String) (n : Nat) :
    (kind ++ " " ++ natStr n).data = kind.data ++ ' ' :: natDigitChars n := by
  rw [string_data_append, string_data_append, List.append_assoc]
  rfl

/-- Claim C4 (round trip): for each of the four object kinds and any byte
string `b`, `hash_object` returns the hex SHA-1 of the uncompressed stream
`<kind> <len>\0` + `b`, and `read_object` of that id returns exactly
`(kind, b)`.  The hypothesis rules out a pre-existing colliding file: per
the idempotent-write rule the id may already be present, but then it holds
this very stream. -/
theorem object_store_roundtrip (kind : String) (b : Bytes) (store : Objects.Store)
    (hkind : kind = "blob" ∨ kind = "tree" ∨ kind = "commit" ∨ kind = "tag")
    (hfresh : dictGet store (sha1Hex (Objects.frameOf kind b)) = none ∨
      dictGet store (sha1Hex (Objects.frameOf kind b)) = some (Objects.frameOf kind b)) :
    (Objects.hash_object store b kind).1 = sha1Hex (Objects.frameOf kind b) ∧
    Objects.read_object (Objects.hash_object store b kind).2
      (sha1Hex (Objects.frameOf kind b)) = some (kind, b) := by
  refine ⟨rfl, ?_⟩
  have hkind_ascii : ∀ c ∈ kind.data, c.toNat < 128 := by
    rcases hkind with rfl | rfl | rfl | rfl <;> decide
  have hkind_nospace : ' ' ∉ kind.data := by
    rcases hkind with rfl | rfl | rfl | rfl <;> decide
  have hdigit_ascii : ∀ c ∈ natDigitChars b.length, c.toNat < 128 := by
    intro c hc
    have := natDigitChars_range b.length c hc
    omega
  have hdigit_nospace : ' ' ∉ natDigitChars b.length := by
    intro hc
    exact absurd (natDigitChars_range b.length ' ' hc) (by decide)
  have hhdr_ascii : ∀ c ∈ (kind ++ " " ++ natStr b.length).data, c.toNat < 128 := by
    rw [frame_header_chars]
    intro c hc
    rcases List.mem_append.mp hc with hc | hc
    · exact hkind_ascii c hc
    · rcases List.mem_cons.mp hc with rfl | hc
      · decide
      · exact hdigit_ascii c hc
  have hbytes : utf8Bytes (kind ++ " " ++ natStr b.length) =
      ((kind ++ " " ++ natStr b.length).data).map Char.toNat :=
    utf8Bytes_ascii _ hhdr_ascii
  have hhdr_nonzero : ∀ x ∈ utf8Bytes (kind ++ " " ++ natStr b.length), x ≠ 0 := by
    rw [hbytes]
    intro x hx
    rcases List.mem_map.mp hx with ⟨c, hc, rfl⟩
    rw [frame_header_chars] at hc
    rcases List.mem_append.mp hc with hc | hc
    · rcases hkind with rfl | rfl | rfl | rfl
      · exact (by decide : ∀ x ∈ "blob".data, x.toNat ≠ 0) c hc
      · exact (by decide : ∀ x ∈ "tree".data, x.toNat ≠ 0) c hc
      · exact (by decide : ∀ x ∈ "commit".data, x.toNat ≠ 0) c hc
      · exact (by decide : ∀ x ∈ "tag".data, x.toNat ≠ 0) c hc
    · rcases List.mem_cons.mp hc with rfl | hc
      · decide
      · have := natDigitChars_range b.length c hc
        omega
  have hstored : dictGet (Objects.hash_object store b kind).2
      (sha1Hex (Objects.frameOf kind b)) = some (Objects.frameOf kind b) := by
    rcases hfresh with hfresh | hfresh
    · have : (dictGet store (sha1Hex (Objects.frameOf kind b))).isSome = false := by
        rw [hfresh]
        rfl
      show dictGet (if _ then _ else _) _ = _
      rw [if_neg (by simp [this])]
      rw [dictGet_append_of_none store _ _ hfresh]
      simp [dictGet, Objects.zcompress]
    · have : (dictGet store (sha1Hex (Objects.frameOf kind b))).isSome = true := by
        rw [hfresh]
        rfl
      show dictGet (if _ then _ else _) _ = _
      rw [if_pos this]
      exact hfresh
  have h₁ : Objects.splitAtZero (Objects.zdecompress (Objects.frameOf kind b)) =
      some (utf8Bytes (kind ++ " " ++ natStr b.length), b) :=
    splitAtZero_append _ _ hhdr_nonzero
  have h₂ : utf8DecStr (utf8Bytes (kind ++ " " ++ natStr b.length)) =
      some (kind ++ " " ++ natStr b.length) := by
    rw [utf8DecStr, hbytes, utf8Dec_ascii _ hhdr_ascii, Option.map_some', string_mk_data]
  have h₃ : pySplit (kind ++ " " ++ natStr b.length) ' ' = [kind, natStr b.length] := by
    rw [pySplit, frame_header_chars, splitOnChar_append ' ' _ _ hkind_nospace,
      splitOnChar_of_not_mem ' ' _ hdigit_nospace]
    simp [string_mk_data, natStr]
  simp only [Objects.read_object, hstored, h₁, h₂, h₃]

/-- Witness for C4: a one-byte blob written into the empty store. -/
theorem object_store_roundtrip_witness :
    (Objects.hash_object [] [120] "blob").1 = sha1Hex (Objects.frameOf "blob" [120]) ∧
    Objects.read_object (Objects.hash_object [] [120] "blob").2
      (sha1Hex (Objects.frameOf "blob" [120])) = some ("blob", [120]) :=
  object_store_roundtrip "blob" [120] [] (Or.inl rfl) (Or.inl (by decide))

/-! ## Claim C6: resolver prefix rule -/

theorem isPrefixOf_length_le (l₁ l₂ : List Char) (h : l₁.isPrefixOf l₂ = true) :
    l₁.length ≤ l₂.length := by
  induction l₁ generalizing l₂ with
  | nil => exact Nat.zero_le _
  | cons c cs ih =>
      cases l₂ with
      | nil => simp [List.isPrefixOf] at h
      | cons d ds =>
          simp only [List.isPrefixOf, Bool.and_eq_true] at h
          simpa [List.length_cons] using ih ds h.2

theorem pyLen_pyLower (s : String) : pyLen (pyLower s) = pyLen s := by
  rw [pyLen, pyLen, pyLower]
  exact List.length_map s.data _

/-- The reduction of `resolve_ref` when neither a branch nor a tag matches:
only the hex-prefix scan remains. -/
theorem resolve_ref_no_ref (st : Repo) (name : String)
    (hbr : dictGet st.branches name = none)
    (htag : dictGet st.tags name = none) :
    resolve_ref st name =
      (if 4 ≤ pyLen name ∧ (pyLower name).data.all (fun c => c ∈ hexLower) = true then
        match (dictKeys st.objects).filter (fun o => pyStartswith o (pyLower name)) with
        | [m] => ResolveOut.found m
        | [] => ResolveOut.notFound
        | _ => ResolveOut.ambiguous
      else ResolveOut.notFound) := by
  rw [resolve_ref, get_branch_commit, hbr, get_tag_ref, htag]
  rfl

/-- Claim C6: for a name that is neither a branch nor a tag nor the literal
`HEAD`, a 4–40-character hex name resolves by scanning the stored ids for
that (lowercased) prefix — unique match found, several matches `Ambiguous`
(printed, returned as absent), none absent; names shorter than 4 never
resolve by prefix, and names longer than 40 cannot match any stored
40-character id and so resolve to absent. -/
theorem resolver_prefix_rule (st : Repo) (name : String)
    (hbr : dictGet st.branches name = none)
    (htag : dictGet st.tags name = none)
    (hhead : pyUpper name ≠ "HEAD")
    (hids : ∀ id ∈ dictKeys st.objects, pyLen id = 40) :
    ((4 ≤ pyLen name ∧ pyLen name ≤ 40 ∧
        (pyLower name).data.all (fun c => c ∈ hexLower) = true) →
      (∀ m, (dictKeys st.objects).filter (fun o => pyStartswith o (pyLower name)) = [m] →
          resolve_ref st name = .found m) ∧
      (∀ m₁ m₂ ms,
          (dictKeys st.objects).filter (fun o => pyStartswith o (pyLower name)) =
            m₁ :: m₂ :: ms →
          resolve_ref st name = .ambiguous) ∧
      ((dictKeys st.objects).filter (fun o => pyStartswith o (pyLower name)) = [] →
          resolve_ref st name = .notFound)) ∧
    (pyLen name < 4 → resolve_ref st name = .notFound) ∧
    (40 < pyLen name → resolve_ref st name = .notFound) := by
  rw [resolve_ref_no_ref st name hbr htag]
  refine ⟨?_, ?_, ?_⟩
  · rintro ⟨h₄, _, hhex⟩
    refine ⟨?_, ?_, ?_⟩
    · intro m hm
      rw [if_pos ⟨h₄, hhex⟩, hm]
    · intro m₁ m₂ ms hm
      rw [if_pos ⟨h₄, hhex⟩, hm]
    · intro hm
      rw [if_pos ⟨h₄, hhex⟩, hm]
  · intro hlt
    rw [if_neg]
    rintro ⟨h₄, _⟩
    omega
  · intro hgt
    have hfil : (dictKeys st.objects).filter (fun o => pyStartswith o (pyLower name)) = [] := by
      rw [List.filter_eq_nil]
      intro a ha
      rw [pyStartswith]
      intro hpre
      have hle := isPrefixOf_length_le _ _ hpre
      have h₁ : (pyLower name).data.length = pyLen name := pyLen_pyLower name
      have h₂ : a.data.length = 40 := hids a ha
      omega
    rw [hfil]
    by_cases hcond : 4 ≤ pyLen name ∧ (pyLower name).data.all (fun c => c ∈ hexLower) = true
    · rw [if_pos hcond]
    · rw [if_neg hcond]

/-- Witness for C6: a six-character prefix of the baseline commit id resolves
uniquely. -/
theorem resolver_prefix_rule_witness :
    resolve_ref baseRepo "592B9C" =
      .found "592b9cd127387b7261e7ed23c01767dfd2d4200e" :=
  ((resolver_prefix_rule baseRepo "592B9C" (by decide) (by decide) (by decide)
      (by decide)).1 (by decide)).1
    "592b9cd127387b7261e7ed23c01767dfd2d4200e" (by decide)

/-! ## Claim C3: the three-way merge per-path rule -/

theorem optTruthy_some_getD (x : Option String) (h : optTruthy x = true) :
    some (x.getD "") = x := by
  cases x with
  | none => simp [optTruthy] at h
  | some s => rfl

/-- One step of the per-path loop, described by `mergeTakes` and
`mergeConflict`. -/
theorem merge_path_rule_eq (bt ht ot : List (String × String))
    (acc : List (String × String) × List String) (q : String) :
    merge_path_rule bt ht ot acc q =
      ((if mergeTakes bt ht ot q then dictSet acc.1 q ((dictGet ot q).getD "") else acc.1),
        acc.2 ++ (if mergeConflict bt ht ot q then [q] else [])) := by
  by_cases hbh : dictGet bt q = dictGet ht q ∨ dictGet ht q = dictGet ot q
  · cases ho : dictGet ot q with
    | none =>
        rcases hbh with h | h
        · simp [merge_path_rule, mergeTakes, mergeConflict, optTruthy, ho, h]
        · rw [ho] at h
          simp [merge_path_rule, mergeTakes, mergeConflict, optTruthy, ho, h]
    | some ov =>
        by_cases hov : ov = ""
        · subst hov
          rcases hbh with h | h
          · simp [merge_path_rule, mergeTakes, mergeConflict, optTruthy, ho, h]
          · rw [ho] at h
            simp [merge_path_rule, mergeTakes, mergeConflict, optTruthy, ho, h]
        · rcases hbh with h | h
          · simp [merge_path_rule, mergeTakes, mergeConflict, optTruthy, ho, h, hov]
          · rw [ho] at h
            simp [merge_path_rule, mergeTakes, mergeConflict, optTruthy, ho, h, hov]
  · push_neg at hbh
    obtain ⟨h₁, h₂⟩ := hbh
    by_cases hbo : dictGet bt q = dictGet ot q
    · have h₂' : ¬ dictGet ot q = dictGet ht q := fun hh => h₂ hh.symm
      simp [merge_path_rule, mergeTakes, mergeConflict, h₁, h₂, h₂', hbo]
    · simp [merge_path_rule, mergeTakes, mergeConflict, h₁, h₂, hbo]

/-- The fold over any path list, relative to its starting accumulator. -/
theorem merge_walk_foldl (bt ht ot : List (String × String)) (L : List String) :
    ∀ (m : List (String × String)) (c : List String),
      (∀ p, dictGet (L.foldl (merge_path_rule bt ht ot) (m, c)).1 p =
        (if p ∈ L ∧ mergeTakes bt ht ot p = true then dictGet ot p else dictGet m p)) ∧
      (L.foldl (merge_path_rule bt ht ot) (m, c)).2 =
        c ++ L.filter (mergeConflict bt ht ot) := by
  induction L with
  | nil =>
      intro m c
      refine ⟨fun p => ?_, by simp⟩
      simp
  | cons q L ih =>
      intro m c
      rw [List.foldl_cons, merge_path_rule_eq]
      obtain ⟨ih₁, ih₂⟩ := ih
        (if mergeTakes bt ht ot q then dictSet m q ((dictGet ot q).getD "") else m)
        (c ++ (if mergeConflict bt ht ot q then [q] else []))
      refine ⟨fun p => ?_, ?_⟩
      · rw [ih₁ p]
        by_cases hL : p ∈ L ∧ mergeTakes bt ht ot p = true
        · rw [if_pos hL, if_pos ⟨List.mem_cons_of_mem q hL.1, hL.2⟩]
        · rw [if_neg hL]
          by_cases hq : p = q
          · subst hq
            by_cases ht' : mergeTakes bt ht ot p = true
            · rw [if_pos ht', if_pos ⟨List.mem_cons_self p L, ht'⟩,
                dictGet_dictSet_self]
              exact optTruthy_some_getD _ (by
                rw [mergeTakes, Bool.and_eq_true] at ht'
                exact ht'.2)
            · rw [if_neg (by simpa using ht'), if_neg (by
                rintro ⟨_, hh⟩
                exact ht' hh)]
          · have hmem : ¬ (p ∈ q :: L ∧ mergeTakes bt ht ot p = true) := by
              rintro ⟨hm, htk⟩
              rcases List.mem_cons.mp hm with rfl | hm
              · exact hq rfl
              · exact hL ⟨hm, htk⟩
            rw [if_neg hmem]
            by_cases ht' : mergeTakes bt ht ot q = true
            · rw [if_pos ht', dictGet_dictSet_ne m q p _ hq]
            · rw [if_neg ht']
      · rw [ih₂, List.filter_cons, List.append_assoc]
        congr 1
        by_cases hc : mergeConflict bt ht ot q = true <;> simp [hc]

/-- Claim C3 (amended): the per-path outcome of the three-way merge loop.
The merged tree maps `p` to the other branch's id exactly when
`b == h or h == o` holds and `o` is present (truthy); in every other case —
including the case where `o` is absent because the other branch deleted the
file — it keeps HEAD's entry for `p`.  The conflict list is exactly the
sorted union of paths filtered by `not (b == h or h == o) and b != o`. -/
theorem merge_walk_characterization (bt ht ot : List (String × String)) :
    (∀ p, dictGet (merge_walk bt ht ot).1 p =
      (if mergeTakes bt ht ot p = true then dictGet ot p else dictGet ht p)) ∧
    (merge_walk bt ht ot).2 = (merge_paths bt ht ot).filter (mergeConflict bt ht ot) := by
  obtain ⟨h₁, h₂⟩ := merge_walk_foldl bt ht ot (merge_paths bt ht ot) ht []
  refine ⟨fun p => ?_, by simpa using h₂⟩
  rw [merge_walk, h₁ p]
  by_cases htk : mergeTakes bt ht ot p = true
  · have hmem : p ∈ merge_paths bt ht ot := by
      rw [merge_paths, mem_sortKeys, mem_dedupKeys]
      have : (dictGet ot p).isSome := by
        rw [mergeTakes, Bool.and_eq_true] at htk
        cases hop : dictGet ot p with
        | none => rw [hop] at htk; simp [optTruthy] at htk
        | some v => rfl
      exact List.mem_append.mpr (Or.inr ((mem_dictKeys_iff_isSome ot p).mpr this))
    rw [if_pos ⟨hmem, htk⟩, if_pos htk]
  · rw [if_neg htk]
    by_cases hmem : p ∈ merge_paths bt ht ot
    · rw [if_neg (by rintro ⟨_, hh⟩; exact htk hh)]
    · rw [if_neg (by rintro ⟨hh, _⟩; exact hmem hh)]

/-- Counterexample to claim C3 as stated: with `T_B = T_H =, p ↦ 1111` and
`p` absent from `T_O` (the other branch deleted it), `b == h` holds and `o`
is absent, so the claim requires the merged tree not to contain `p` — but
the code keeps HEAD's entry (and records no conflict): deletions are not
propagated. -/
theorem merge_drop_counterexample :
    dictGet (merge_walk [("p", "1111")] [("p", "1111")] []).1 "p" = some "1111" ∧
    (merge_walk [("p", "1111")] [("p", "1111")] []).2 = [] := by
  constructor
  · rfl
  · rfl

/-! ## Checkout effects (shared by the fast-forward and three-tree claims) -/

theorem str_append_assoc (a b c : String) : a ++ b ++ c = a ++ (b ++ c) :=
  strext (by rw [string_data_append, string_data_append, string_data_append,
    string_data_append, List.append_assoc])

theorem dictGet_filter (wd : List (String × α)) (P : String → Bool) (p : String) :
    dictGet (wd.filter (fun e => P e.1)) p = if P p then dictGet wd p else none := by
  induction wd with
  | nil => simp [dictGet]
  | cons e rest ih =>
      obtain ⟨k, v⟩ := e
      by_cases hk : k = p
      · subst hk
        by_cases hP : P k <;> simp [List.filter_cons, hP, dictGet, ih]
      · by_cases hP : P k <;> simp [List.filter_cons, hP, dictGet, hk, ih]

/-- What the file-writing loop produces: existence plus the lookups inside
and outside the written tree. -/
theorem materialize_spec (st : Repo) (τ : List (String × String))
    (hnd : (dictKeys τ).Nodup)
    (hread : ∀ p sha, (p, sha) ∈ τ → (read_object st sha).isSome) :
    ∀ wd, ∃ wd', materialize st wd τ = some wd' ∧
      (∀ p, p ∉ dictKeys τ → dictGet wd' p = dictGet wd p) ∧
      (∀ p sha k c, dictGet τ p = some sha → read_object st sha = some (k, c) →
        dictGet wd' p = some c) := by
  induction τ with
  | nil =>
      intro wd
      exact ⟨wd, rfl, fun p _ => rfl, fun p sha k c h => by simp [dictGet] at h⟩
  | cons e rest ih =>
      obtain ⟨p₀, sha₀⟩ := e
      simp only [dictKeys, List.map_cons, List.nodup_cons] at hnd
      intro wd
      have hr₀ := hread p₀ sha₀ (List.mem_cons_self _ _)
      obtain ⟨⟨k₀, c₀⟩, hr⟩ := Option.isSome_iff_exists.mp hr₀
      obtain ⟨wd', hmat, hout, hin⟩ := ih hnd.2
        (fun p sha hm => hread p sha (List.mem_cons_of_mem _ hm)) (dictSet wd p₀ c₀)
      refine ⟨wd', ?_, ?_, ?_⟩
      · rw [materialize, hr]
        exact hmat
      · intro p hp
        simp only [dictKeys, List.map_cons, List.mem_cons] at hp
        push_neg at hp
        rw [hout p (by simpa [dictKeys] using hp.2),
          dictGet_dictSet_ne wd p₀ p c₀ hp.1]
      · intro p sha k c hτ hrd
        by_cases hp : p₀ = p
        · subst hp
          rw [dictGet] at hτ
          rw [if_pos rfl] at hτ
          cases hτ
          rw [hrd] at hr
          cases hr
          rw [hout p₀ (by simpa [dictKeys] using hnd.1), dictGet_dictSet_self]
        · rw [dictGet, if_neg hp] at hτ
          exact hin p sha k c hτ hrd

/-- The full effect of a successful `checkout` of a name resolving to commit
`O` whose tree is readable: the store and every ref are untouched, the index
becomes `O`'s tree, `HEAD` attaches to the branch (or detaches at `O`), the
tree's files are materialized, files only in the old HEAD tree are deleted,
and every other working-tree file survives. -/
theorem checkout_spec (st : Repo) (name O : String)
    (hres : resolve_or_head st name true = some O)
    (hO : ¬ O = "")
    (hnd : (dictKeys (get_tree_contents st (get_commit_tree st O))).Nodup)
    (hread : ∀ p sha, (p, sha) ∈ get_tree_contents st (get_commit_tree st O) →
      (read_object st sha).isSome) :
    ∃ st', checkout st name = some (st', true) ∧
      st'.objects = st.objects ∧
      st'.branches = st.branches ∧
      st'.tags = st.tags ∧
      st'.stashes = st.stashes ∧
      st'.config = st.config ∧
      st'.now = st.now ∧
      st'.index = get_tree_contents st (get_commit_tree st O) ∧
      st'.head = (if (get_branch_commit st name).isSome
        then "ref: " ++ ("refs/heads/" ++ name) else O) ∧
      (∀ p sha k c, dictGet (get_tree_contents st (get_commit_tree st O)) p = some sha →
        read_object st sha = some (k, c) → dictGet st'.workdir p = some c) ∧
      (∀ p, p ∉ dictKeys (get_tree_contents st (get_commit_tree st O)) →
        dictGet st'.workdir p =
          (if p ∈ dictKeys (head_tree st) then none else dictGet st.workdir p)) := by
  obtain ⟨wd', hmat, hout, hin⟩ := materialize_spec st _ hnd hread
    (st.workdir.filter (fun e => ¬ e.1 ∈ (dictKeys (head_tree st)).filter
      (fun p => ¬ p ∈ dictKeys (get_tree_contents st (get_commit_tree st O)))))
  have hwd : ∀ p, p ∉ dictKeys (get_tree_contents st (get_commit_tree st O)) →
      dictGet wd' p =
        (if p ∈ dictKeys (head_tree st) then none else dictGet st.workdir p) := by
    intro p hp
    rw [hout p hp, dictGet_filter st.workdir
      (fun x => decide (x ∉ (dictKeys (head_tree st)).filter
        (fun q => decide (q ∉ dictKeys (get_tree_contents st (get_commit_tree st O)))))) p]
    by_cases hold : p ∈ dictKeys (head_tree st)
    · have hcond : ¬ ((decide (p ∉ (dictKeys (head_tree st)).filter
          (fun q => decide (q ∉ dictKeys (get_tree_contents st (get_commit_tree st O)))))) = true) := by
        simp
        exact ⟨hold, hp⟩
      rw [if_neg hcond, if_pos hold]
    · have hcond : (decide (p ∉ (dictKeys (head_tree st)).filter
          (fun q => decide (q ∉ dictKeys (get_tree_contents st (get_commit_tree st O)))))) = true := by
        simp
        exact Or.inl hold
      rw [if_pos hcond, if_neg hold]
  simp only [checkout, hres, if_neg hO, hmat]
  by_cases hb : (get_branch_commit st name).isSome
  · rw [if_pos hb]
    refine ⟨_, rfl, rfl, rfl, rfl, rfl, rfl, rfl, rfl, ?_, ?_, ?_⟩
    · rw [if_pos hb]
      rfl
    · intro p sha k c h₁ h₂
      exact hin p sha k c h₁ h₂
    · intro p hp
      exact hwd p hp
  · rw [if_neg hb]
    refine ⟨_, rfl, rfl, rfl, rfl, rfl, rfl, rfl, rfl, ?_, ?_, ?_⟩
    · rw [if_neg hb]
      rfl
    · intro p sha k c h₁ h₂
      exact hin p sha k c h₁ h₂
    · intro p hp
      exact hwd p hp

/-! ## Reading `HEAD` back after an update -/

theorem isPrefixOf_self_append (l x : List Char) : l.isPrefixOf (l ++ x) = true := by
  induction l with
  | nil => cases x <;> rfl
  | cons c cs ih => simp [List.isPrefixOf, ih]

theorem get_head_ref_attached (st : Repo) (bn : String)
    (h : st.head = "ref: " ++ ("refs/heads/" ++ bn)) (hsp : ' ' ∉ bn.data) :
    get_head_ref st = "refs/heads/" ++ bn := by
  rw [get_head_ref, h]
  have hdata : ("ref: " ++ ("refs/heads/" ++ bn)).data =
      "ref:".data ++ ' ' :: ("refs/heads/" ++ bn).data := by
    rw [string_data_append]
    rfl
  have hstart : pyStartswith ("ref: " ++ ("refs/heads/" ++ bn)) "ref:" = true := by
    rw [pyStartswith, hdata]
    exact isPrefixOf_self_append "ref:".data _
  rw [if_pos hstart, pySplit, hdata,
    splitOnChar_append ' ' _ _ (by decide),
    splitOnChar_of_not_mem ' ' _ (by
      rw [string_data_append]
      intro hm
      rcases List.mem_append.mp hm with hm | hm
      · exact absurd hm (by decide)
      · exact hsp hm)]
  simp only [List.map_cons, List.getD_cons_succ, List.getD_cons_zero]

theorem get_head_commit_attached (st : Repo) (bn : String)
    (h : st.head = "ref: " ++ ("refs/heads/" ++ bn)) (hsp : ' ' ∉ bn.data) :
    get_head_commit st = dictGet st.branches bn := by
  rw [get_head_commit, get_head_ref_attached st bn h hsp]
  have hhex : isHex40 ("refs/heads/" ++ bn) = false := by
    rw [isHex40]
    have hall : ("refs/heads/" ++ bn).data.all (fun c => c ∈ hexLower) = false := by
      rw [string_data_append, List.all_append]
      rw [show "refs/heads/".data.all (fun c => decide (c ∈ hexLower)) = false from by decide]
      rfl
    rw [hall, Bool.and_false]
  rw [hhex]
  have hstart : pyStartswith ("refs/heads/" ++ bn) "refs/heads/" = true := by
    rw [pyStartswith, string_data_append]
    exact isPrefixOf_self_append "refs/heads/".data _
  rw [if_neg (by simp), if_pos hstart]
  have hdrop : pyDrop ("refs/heads/" ++ bn) 11 = bn := by
    rw [pyDrop, string_data_append,
      show (11 : Nat) = "refs/heads/".data.length from rfl, List.drop_left,
      string_mk_data]
  rw [hdrop]

theorem isPrefixOf_cons_shape (c : Char) (l o : List Char)
    (h : (c :: l).isPrefixOf o = true) : ∃ rest, o = c :: rest := by
  cases o with
  | nil => simp [List.isPrefixOf] at h
  | cons d ds =>
      simp only [List.isPrefixOf, Bool.and_eq_true, beq_iff_eq] at h
      exact ⟨ds, by rw [h.1]⟩

set_option maxHeartbeats 1600000 in
theorem get_head_commit_detached (st : Repo) (O : String)
    (h : st.head = O) (hhex : isHex40 O = true) :
    get_head_commit st = some O := by
  have hnotref : pyStartswith O "ref:" = false := by
    rw [isHex40, Bool.and_eq_true] at hhex
    by_contra hc
    rw [Bool.not_eq_false] at hc
    rw [pyStartswith] at hc
    obtain ⟨rest, hrest⟩ := isPrefixOf_cons_shape 'r' _ _ (by
      rw [show "ref:".data = 'r' :: "ef:".data from rfl] at hc
      exact hc)
    have : 'r' ∈ O.data := by
      rw [hrest]
      exact List.mem_cons_self _ _
    have := List.all_eq_true.mp hhex.2 'r' this
    simp [hexLower] at this
  rw [get_head_commit, get_head_ref, h, hnotref]
  simp only [Bool.false_eq_true, if_false]
  rw [if_pos hhex]

/-! ## Claim C2: fast-forward merge -/

set_option maxHeartbeats 3200000 in
/-- When the merge finds a strictly-ahead other branch, it is exactly a
`checkout` of that branch. -/
theorem merge_ff_eq (st : Repo) (bn H O : String)
    (hH : get_head_commit st = some H)
    (hO : get_branch_commit st bn = some O)
    (hOne : ¬ O = "") (hne : ¬ H = O)
    (hnotanc : O ∉ get_full_history_set st (some H))
    (hanc : H ∈ get_full_history_set st (some O)) :
    merge st bn = checkout st bn := by
  have h₁ : ¬ (¬ optTruthy (some O) = true ∨ (some H : Option String) = some O) := by
    rintro (hh | hh)
    · exact hh (by simp [optTruthy, hOne])
    · exact hne (Option.some.inj hh)
  rw [merge.eq_def]
  simp only [hH, hO]
  rw [if_neg h₁]
  rw [if_neg hnotanc]
  rw [if_pos (by simpa using hanc)]

/-- The resolver on a plain branch name whose tip is a commit object. -/
theorem resolve_branch_name (st : Repo) (bn O octnt : String)
    (hO : get_branch_commit st bn = some O)
    (hOne : ¬ O = "")
    (hbn_ne : ¬ bn = "")
    (hbn_nothead : ¬ pyUpper bn = "HEAD")
    (hOc : read_object st O = some ("commit", octnt)) :
    resolve_or_head st bn true = some O := by
  have hro : resolveOpt st bn = some O := by
    rw [resolveOpt]
    simp only [resolve_ref, hO]
    rw [if_pos (by simp [optTruthy, hOne])]
    rfl
  rw [resolve_or_head, if_neg hbn_nothead, if_pos rfl, resolve_ref_to_commit,
    if_neg hbn_ne]
  simp only [hro]
  rw [peelToCommit, hOc]
  simp

/-- Claim C2 (amended): when `H` is the HEAD commit, the named branch points
at commit `O ≠ H`, `O` is not an ancestor of `H` and `H` is an ancestor of
`O`, `merge` fast-forwards **by checking out the named branch**: `HEAD`
becomes attached to that branch (which already points at `O`), `O`'s tree is
materialized into the index and working tree, no object — in particular no
commit — is created, and every branch ref, including the one `HEAD` was
previously attached to, is left unchanged. -/
theorem merge_fast_forward (st : Repo) (bn H O octnt : String)
    (hH : get_head_commit st = some H)
    (hO : get_branch_commit st bn = some O)
    (hOne : ¬ O = "") (hne : ¬ H = O)
    (hnotanc : O ∉ get_full_history_set st (some H))
    (hanc : H ∈ get_full_history_set st (some O))
    (hbn_ne : ¬ bn = "")
    (hbn_nothead : ¬ pyUpper bn = "HEAD")
    (hbn_nospace : ' ' ∉ bn.data)
    (hOc : read_object st O = some ("commit", octnt))
    (hnd : (dictKeys (get_tree_contents st (get_commit_tree st O))).Nodup)
    (hread : ∀ p sha, (p, sha) ∈ get_tree_contents st (get_commit_tree st O) →
      (read_object st sha).isSome) :
    ∃ st', merge st bn = some (st', true) ∧
      st'.objects = st.objects ∧
      st'.branches = st.branches ∧
      dictGet st'.branches bn = some O ∧
      st'.head = "ref: " ++ ("refs/heads/" ++ bn) ∧
      get_head_commit st' = some O ∧
      st'.index = get_tree_contents st (get_commit_tree st O) ∧
      (∀ p sha k c, dictGet (get_tree_contents st (get_commit_tree st O)) p = some sha →
        read_object st sha = some (k, c) → dictGet st'.workdir p = some c) ∧
      (∀ p, p ∉ dictKeys (get_tree_contents st (get_commit_tree st O)) →
        dictGet st'.workdir p =
          (if p ∈ dictKeys (head_tree st) then none else dictGet st.workdir p)) := by
  have hresolve := resolve_branch_name st bn O octnt hO hOne hbn_ne hbn_nothead hOc
  obtain ⟨st', hco, hobj, hbrs, htags, hsts, hcfg, hnow, hidx, hhead, hin, hout⟩ :=
    checkout_spec st bn O hresolve hOne hnd hread
  have hbsome : (get_branch_commit st bn).isSome := by
    rw [hO]
    rfl
  have hhead' : st'.head = "ref: " ++ ("refs/heads/" ++ bn) := by
    rw [hhead, if_pos hbsome]
  refine ⟨st', ?_, hobj, hbrs, ?_, hhead', ?_, hidx, hin, hout⟩
  · rw [merge_ff_eq st bn H O hH hO hOne hne hnotanc hanc, hco]
  · rw [hbrs]
    exact hO
  · rw [get_head_commit_attached st' bn hhead' hbn_nospace, hbrs]
    exact hO

/-- Counterexample to claim C2 as stated: in the concrete fast-forward
scenario, `merge feat` succeeds but `main` — the branch `HEAD` is attached
to — still points at the old head commit, which differs from `feat`'s tip;
instead `HEAD` itself was switched to `refs/heads/feat`.  (The store is also
unchanged, confirming no commit was created.) -/
theorem merge_fast_forward_counterexample :
    ffRepo.head = "ref: refs/heads/main" ∧
    (merge ffRepo "feat").map (fun r => (dictGet r.1.branches "main", r.1.head, r.2)) =
      some (dictGet ffRepo.branches "main", "ref: refs/heads/feat", true) ∧
    dictGet ffRepo.branches "main" ≠ dictGet ffRepo.branches "feat" ∧
    (merge ffRepo "feat").map (fun r => r.1.objects.length) =
      some ffRepo.objects.length := by
  refine ⟨rfl, ?_, by decide, ?_⟩
  · rfl
  · rfl

/-- Witness for C2 (amended) at the concrete fast-forward scenario. -/
theorem merge_fast_forward_witness :
    ∃ st', merge ffRepo "feat" = some (st', true) ∧
      st'.objects = ffRepo.objects ∧
      st'.branches = ffRepo.branches ∧
      dictGet st'.branches "feat" = some "e77593f9e3313629bc35bc061d2f273b2624456a" ∧
      st'.head = "ref: " ++ ("refs/heads/" ++ "feat") ∧
      get_head_commit st' = some "e77593f9e3313629bc35bc061d2f273b2624456a" ∧
      st'.index = get_tree_contents ffRepo
        (get_commit_tree ffRepo "e77593f9e3313629bc35bc061d2f273b2624456a") ∧
      (∀ p sha k c, dictGet (get_tree_contents ffRepo
          (get_commit_tree ffRepo "e77593f9e3313629bc35bc061d2f273b2624456a")) p = some sha →
        read_object ffRepo sha = some (k, c) → dictGet st'.workdir p = some c) ∧
      (∀ p, p ∉ dictKeys (get_tree_contents ffRepo
          (get_commit_tree ffRepo "e77593f9e3313629bc35bc061d2f273b2624456a")) →
        dictGet st'.workdir p =
          (if p ∈ dictKeys (head_tree ffRepo) then none else dictGet ffRepo.workdir p)) :=
  merge_fast_forward ffRepo "feat" "592b9cd127387b7261e7ed23c01767dfd2d4200e"
    "e77593f9e3313629bc35bc061d2f273b2624456a"
    "tree dc6502fcc5be5dca38393cb4ec88b468de3010a7\nparent 592b9cd127387b7261e7ed23c01767dfd2d4200e\nauthor PyGit User <user@pygit.com> 2024-01-01T00:00:00\ncommitter PyGit User <user@pygit.com> 2024-01-01T00:00:00\n\ntwo\n"
    (by decide) (by decide) (by decide) (by decide) (by decide) (by decide)
    (by decide) (by decide) (by decide) (by decide) (by decide)
    (fun p sha h => by
      have hb : ∀ e ∈ get_tree_contents ffRepo
          (get_commit_tree ffRepo "e77593f9e3313629bc35bc061d2f273b2624456a"),
          (read_object ffRepo e.2).isSome := by decide
      exact hb (p, sha) h)

/-! ## Claim C5: the three-tree law after checkout -/

theorem dictGet_none_of_not_mem_keys (d : List (String × α)) (p : String)
    (h : p ∉ dictKeys d) : dictGet d p = none := by
  cases hg : dictGet d p with
  | none => rfl
  | some v =>
      exact absurd ((mem_dictKeys_iff_isSome d p).mpr (by rw [hg]; rfl)) h

theorem dictGet_map_hash (d : List (String × String)) (p : String) :
    dictGet (d.map (fun e => (e.1, hashId "blob" e.2))) p =
      (dictGet d p).map (fun c => hashId "blob" c) := by
  induction d with
  | nil => rfl
  | cons e rest ih =>
      obtain ⟨k, v⟩ := e
      by_cases h : k = p
      · simp [dictGet, h]
      · simp [dictGet, h, ih]

theorem read_object_congr (st st' : Repo) (h : st'.objects = st.objects) (x : String) :
    read_object st' x = read_object st x := by
  rw [read_object, read_object, h]

theorem get_commit_tree_congr (st st' : Repo) (h : st'.objects = st.objects)
    (x : String) : get_commit_tree st' x = get_commit_tree st x := by
  rw [get_commit_tree.eq_def, get_commit_tree.eq_def, read_object_congr st st' h]

theorem get_tree_contents_congr (st st' : Repo) (h : st'.objects = st.objects)
    (t : Option String) : get_tree_contents st' t = get_tree_contents st t := by
  cases t with
  | none => rfl
  | some tid =>
      rw [get_tree_contents.eq_def, get_tree_contents.eq_def]
      simp only []
      rw [read_object_congr st st' h]

/-- Claim C5 (amended): after `checkout X` succeeds the HEAD tree, the index
and the working directory hashed back to blob ids agree — provided the new
tree's entries all read back as blobs whose ids are their content addresses,
and every pre-checkout working-directory file is tracked (it lies in the new
tree or in the old HEAD tree).  Without the tracking hypothesis the law
fails: checkout leaves untracked files in place (see the counterexample).
The embedded `workdir` holds exactly the non-ignored, non-meta paths, so the
claim's restriction is the identity here. -/
theorem checkout_three_tree (st : Repo) (name O : String)
    (hres : resolve_or_head st name true = some O)
    (hO : ¬ O = "")
    (hnd : (dictKeys (get_tree_contents st (get_commit_tree st O))).Nodup)
    (hblob : ∀ p sha, (p, sha) ∈ get_tree_contents st (get_commit_tree st O) →
      (read_object st sha).map (fun kc => (kc.1, hashId "blob" kc.2)) =
        some ("blob", sha))
    (hcover : ∀ p, (dictGet st.workdir p).isSome →
      p ∉ dictKeys (get_tree_contents st (get_commit_tree st O)) →
      p ∈ dictKeys (head_tree st))
    (hbO : (get_branch_commit st name).getD O = O)
    (hsp : ' ' ∉ name.data)
    (hshape : (get_branch_commit st name).isSome = false → isHex40 O = true) :
    ∃ st', checkout st name = some (st', true) ∧
      head_tree st' = st'.index ∧
      (∀ p, dictGet (workdir_id_map st') p = dictGet st'.index p) := by
  have hread : ∀ p sha, (p, sha) ∈ get_tree_contents st (get_commit_tree st O) →
      (read_object st sha).isSome := by
    intro p sha hm
    have hb := hblob p sha hm
    cases hro : read_object st sha with
    | none => rw [hro] at hb; simp at hb
    | some kc => rfl
  obtain ⟨st', hco, hobj, hbrs, htags, hsts, hcfg, hnow, hidx, hhead, hin, hout⟩ :=
    checkout_spec st name O hres hO hnd hread
  have hhc : get_head_commit st' = some O := by
    by_cases hb : (get_branch_commit st name).isSome
    · obtain ⟨B, hB⟩ := Option.isSome_iff_exists.mp hb
      have hBO : B = O := by
        rw [hB] at hbO
        simpa using hbO
      rw [get_head_commit_attached st' name (by rw [hhead, if_pos hb]) hsp, hbrs]
      rw [hBO] at hB
      exact hB
    · have hhex := hshape (by simpa using hb)
      exact get_head_commit_detached st' O (by rw [hhead, if_neg hb]) hhex
  refine ⟨st', hco, ?_, ?_⟩
  · rw [head_tree.eq_def, hhc]
    show get_tree_contents st' (get_commit_tree st' O) = st'.index
    rw [get_commit_tree_congr st st' hobj, get_tree_contents_congr st st' hobj, hidx]
  · intro p
    rw [hidx, workdir_id_map, dictGet_map_hash]
    by_cases hp : p ∈ dictKeys (get_tree_contents st (get_commit_tree st O))
    · have hsome := (mem_dictKeys_iff_isSome _ p).mp hp
      obtain ⟨sha, hsha⟩ := Option.isSome_iff_exists.mp hsome
      have hm := mem_of_dictGet_eq_some _ p sha hsha
      have hbp := hblob p sha hm
      cases hro : read_object st sha with
      | none => rw [hro] at hbp; simp at hbp
      | some kc =>
          obtain ⟨k, c⟩ := kc
          rw [hro] at hbp
          simp only [Option.map_some'] at hbp
          injection hbp with hbp
          injection hbp with hk hhash
          have hwd := hin p sha k c hsha hro
          rw [hwd, hsha]
          show some (hashId "blob" c) = some sha
          rw [hhash]
    · rw [dictGet_none_of_not_mem_keys _ p hp, hout p hp]
      by_cases hold : p ∈ dictKeys (head_tree st)
      · rw [if_pos hold]
        rfl
      · rw [if_neg hold]
        cases hwp : dictGet st.workdir p with
        | none => rfl
        | some c =>
            exact absurd (hcover p (by rw [hwp]; rfl) hp) hold

/-- Counterexample to claim C5 as stated: checking out `main` in a
repository whose working directory holds the untracked, non-ignored file
`u.txt` succeeds, yet afterwards `u.txt` is still on disk (it hashes to a
blob id in the working-tree mapping) while the index and the HEAD tree have
no entry for it — the three mappings are not equal. -/
theorem checkout_three_tree_counterexample :
    (checkout untrackedRepo "main").map (fun r =>
      (r.2, dictGet (workdir_id_map r.1) "u.txt", dictGet r.1.index "u.txt",
        dictGet (head_tree r.1) "u.txt")) =
      some (true, some (hashId "blob" "u"), none, none) := by
  decide

/-- Witness for C5 (amended) at the committed baseline, where every
working-directory file is tracked. -/
theorem checkout_three_tree_witness :
    ∃ st', checkout baseRepo "main" = some (st', true) ∧
      head_tree st' = st'.index ∧
      (∀ p, dictGet (workdir_id_map st') p = dictGet st'.index p) :=
  checkout_three_tree baseRepo "main" "592b9cd127387b7261e7ed23c01767dfd2d4200e"
    (by decide) (by decide) (by decide)
    (fun p sha h => by
      have hb : ∀ e ∈ get_tree_contents baseRepo
          (get_commit_tree baseRepo "592b9cd127387b7261e7ed23c01767dfd2d4200e"),
          (read_object baseRepo e.2).map (fun kc => (kc.1, hashId "blob" kc.2)) =
            some ("blob", e.2) := by decide
      exact hb (p, sha) h)
    (fun p hw hnt => by
      obtain ⟨c, hc⟩ := Option.isSome_iff_exists.mp hw
      have hm := mem_of_dictGet_eq_some baseRepo.workdir p c hc
      have hb : ∀ e ∈ baseRepo.workdir,
          e.1 ∈ dictKeys (get_tree_contents baseRepo
            (get_commit_tree baseRepo "592b9cd127387b7261e7ed23c01767dfd2d4200e")) := by
        decide
      exact absurd (hb (p, c) hm) hnt)
    (by decide) (by decide)
    (fun h => absurd h (by decide))

/-! ## Claim C7: conflict markers -/

theorem dictGet_append_left (d e : List (String × α)) (k : String) (v : α)
    (h : dictGet d k = some v) : dictGet (d ++ e) k = some v := by
  induction d with
  | nil => simp [dictGet] at h
  | cons x rest ih =>
      obtain ⟨k', v'⟩ := x
      rw [dictGet] at h
      rw [List.cons_append, dictGet]
      by_cases hk : k' = k
      · rw [if_pos hk] at h ⊢
        exact h
      · rw [if_neg hk] at h ⊢
        exact ih h

/-- `hash_object` only ever appends to the store, and what it appends (if
anything) carries the requested kind. -/
theorem hash_object_spec (st : Repo) (data obj_type : String) :
    ∃ extra, (hash_object st data obj_type).2 =
      { st with objects := st.objects ++ extra } ∧ ∀ e ∈ extra, e.2.1 = obj_type := by
  rw [hash_object]
  by_cases h : (dictGet st.objects (hashId obj_type data)).isSome
  · refine ⟨[], ?_, by simp⟩
    rw [if_pos h]
    cases st
    simp
  · exact ⟨[(hashId obj_type data, obj_type, data)], by rw [if_neg h], by simp⟩

/-- One step of the conflict loop, with both blob reads resolved. -/
theorem write_conflicts_cons (bn : String) (ht ot : List (String × String))
    (st : Repo) (merged : List (String × String)) (p : String) (rest : List String)
    (hsha osha hk hc okk oc : String)
    (hh : dictGet ht p = some hsha) (ho : dictGet ot p = some osha)
    (hr : read_object st hsha = some (hk, hc))
    (hro : read_object st osha = some (okk, oc)) :
    write_conflicts bn ht ot st merged (p :: rest) =
      write_conflicts bn ht ot
        (hash_object { st with workdir := dictSet st.workdir p (conflictMarker bn hc oc) }
          (conflictMarker bn hc oc) "blob").2
        (dictSet merged p (hashId "blob" (conflictMarker bn hc oc))) rest := by
  rw [write_conflicts.eq_def]
  simp only [hh, ho, hr, hro]
  rfl

/-- The conflict loop, run over a duplicate-free list of paths each of which
reads back from both trees: it succeeds, only appends blobs to the store,
keeps every ref, writes the marker file and the marker blob id exactly at
the processed paths, and leaves everything else alone. -/
theorem write_conflicts_spec (bn : String) (ht ot : List (String × String))
    (C : List String) :
    ∀ (st : Repo) (merged : List (String × String)),
      C.Nodup →
      (∀ p ∈ C, ((dictGet ht p).bind (fun s => read_object st s)).isSome ∧
        ((dictGet ot p).bind (fun s => read_object st s)).isSome) →
      ∃ st' merged', write_conflicts bn ht ot st merged C = some (st', merged') ∧
        (∃ extra, st'.objects = st.objects ++ extra ∧ ∀ e ∈ extra, e.2.1 = "blob") ∧
        st'.head = st.head ∧
        st'.branches = st.branches ∧
        st'.index = st.index ∧
        (∀ q, q ∉ C → dictGet st'.workdir q = dictGet st.workdir q) ∧
        (∀ q, q ∉ C → dictGet merged' q = dictGet merged q) ∧
        (∀ q ∈ C, ∀ hsha osha hk hc okk oc,
          dictGet ht q = some hsha → dictGet ot q = some osha →
          read_object st hsha = some (hk, hc) → read_object st osha = some (okk, oc) →
          dictGet st'.workdir q = some (conflictMarker bn hc oc) ∧
          dictGet merged' q = some (hashId "blob" (conflictMarker bn hc oc))) := by
  induction C with
  | nil =>
      intro st merged _ _
      exact ⟨st, merged, rfl, ⟨[], by simp, by simp⟩, rfl, rfl, rfl,
        fun q _ => rfl, fun q _ => rfl, by simp⟩
  | cons p rest ih =>
      intro st merged hnd hok
      rw [List.nodup_cons] at hnd
      obtain ⟨hpr, hndr⟩ := hnd
      obtain ⟨hokh, hoko⟩ := hok p (List.mem_cons_self _ _)
      have hexh : ∃ s x, dictGet ht p = some s ∧ read_object st s = some x := by
        cases hhp : dictGet ht p with
        | none => rw [hhp] at hokh; simp at hokh
        | some s =>
            rw [hhp] at hokh
            obtain ⟨x, hx⟩ := Option.isSome_iff_exists.mp hokh
            exact ⟨s, x, rfl, hx⟩
      have hexo : ∃ s x, dictGet ot p = some s ∧ read_object st s = some x := by
        cases hop : dictGet ot p with
        | none => rw [hop] at hoko; simp at hoko
        | some s =>
            rw [hop] at hoko
            obtain ⟨x, hx⟩ := Option.isSome_iff_exists.mp hoko
            exact ⟨s, x, rfl, hx⟩
      obtain ⟨hsha, ⟨hk, hc⟩, hh, hr⟩ := hexh
      obtain ⟨osha, ⟨okk, oc⟩, ho, hro⟩ := hexo
      obtain ⟨e₀, h2eq, h2blob⟩ := hash_object_spec
        { st with workdir := dictSet st.workdir p (conflictMarker bn hc oc) }
        (conflictMarker bn hc oc) "blob"
      have hmono : ∀ s x, read_object st s = some x →
          read_object (hash_object
            { st with workdir := dictSet st.workdir p (conflictMarker bn hc oc) }
            (conflictMarker bn hc oc) "blob").2 s = some x := by
        intro s x hx
        rw [read_object, h2eq]
        exact dictGet_append_left _ _ _ _ hx
      have hok' : ∀ q ∈ rest,
          ((dictGet ht q).bind (fun s => read_object (hash_object
            { st with workdir := dictSet st.workdir p (conflictMarker bn hc oc) }
            (conflictMarker bn hc oc) "blob").2 s)).isSome ∧
          ((dictGet ot q).bind (fun s => read_object (hash_object
            { st with workdir := dictSet st.workdir p (conflictMarker bn hc oc) }
            (conflictMarker bn hc oc) "blob").2 s)).isSome := by
        intro q hq
        obtain ⟨h1, h2⟩ := hok q (List.mem_cons_of_mem _ hq)
        constructor
        · cases hhq : dictGet ht q with
          | none => rw [hhq] at h1; simp at h1
          | some s =>
              rw [hhq] at h1
              obtain ⟨x, hx⟩ := Option.isSome_iff_exists.mp h1
              exact Option.isSome_iff_exists.mpr ⟨x, hmono s x hx⟩
        · cases hoq : dictGet ot q with
          | none => rw [hoq] at h2; simp at h2
          | some s =>
              rw [hoq] at h2
              obtain ⟨x, hx⟩ := Option.isSome_iff_exists.mp h2
              exact Option.isSome_iff_exists.mpr ⟨x, hmono s x hx⟩
      obtain ⟨st'', merged'', hwc, ⟨extra₁, hobj₁, hblob₁⟩, hhd, hbr, hix, hwout, hmout, hper⟩ :=
        ih (hash_object
            { st with workdir := dictSet st.workdir p (conflictMarker bn hc oc) }
            (conflictMarker bn hc oc) "blob").2
          (dictSet merged p (hashId "blob" (conflictMarker bn hc oc))) hndr hok'
      refine ⟨st'', merged'', ?_, ⟨e₀ ++ extra₁, ?_, ?_⟩, ?_, ?_, ?_, ?_, ?_, ?_⟩
      · rw [write_conflicts_cons bn ht ot st merged p rest hsha osha hk hc okk oc hh ho hr hro]
        exact hwc
      · rw [hobj₁, h2eq]
        simp [List.append_assoc]
      · intro e he
        rcases List.mem_append.mp he with h | h
        · exact h2blob e h
        · exact hblob₁ e h
      · rw [hhd, h2eq]
      · rw [hbr, h2eq]
      · rw [hix, h2eq]
      · intro q hq
        have hq1 : q ≠ p := fun h => hq (h ▸ List.mem_cons_self _ _)
        have hq2 : q ∉ rest := fun h => hq (List.mem_cons_of_mem _ h)
        rw [hwout q hq2, h2eq]
        show dictGet (dictSet st.workdir p (conflictMarker bn hc oc)) q = dictGet st.workdir q
        exact dictGet_dictSet_ne _ _ _ _ hq1
      · intro q hq
        have hq1 : q ≠ p := fun h => hq (h ▸ List.mem_cons_self _ _)
        have hq2 : q ∉ rest := fun h => hq (List.mem_cons_of_mem _ h)
        rw [hmout q hq2]
        exact dictGet_dictSet_ne _ _ _ _ hq1
      · intro q hqmem hsha' osha' hk' hc' okk' oc' hh' ho' hr' hro'
        rcases List.mem_cons.mp hqmem with rfl | hqr
        · rw [hh] at hh'
          injection hh' with hh'
          subst hh'
          rw [ho] at ho'
          injection ho' with ho'
          subst ho'
          rw [hr] at hr'
          injection hr' with hr'
          injection hr' with hk12 hc12
          subst hk12
          subst hc12
          rw [hro] at hro'
          injection hro' with hro'
          injection hro' with hok12 hoc12
          subst hok12
          subst hoc12
          constructor
          · rw [hwout q hpr, h2eq]
            show dictGet (dictSet st.workdir q (conflictMarker bn hc oc)) q = _
            rw [dictGet_dictSet_self]
          · rw [hmout q hpr, dictGet_dictSet_self]
        · exact hper q hqr hsha' osha' hk' hc' okk' oc' hh' ho'
            (hmono _ _ hr') (hmono _ _ hro')

set_option maxHeartbeats 3200000 in
/-- Claim C7 (amended): when the three-way merge records conflicts and every
conflicted path is present in **both** the HEAD tree and the other tree with
readable bodies, `merge` returns a failure signal, writes for each conflicted
path the exact marker file and hashes it into the index as a blob, appends
only blob objects to the store (in particular no commit), and leaves `HEAD`
and every branch ref unchanged.  The both-sides hypothesis is necessary: a
delete/modify conflict crashes instead (see the counterexample). -/
theorem merge_conflict_markers (st : Repo) (bn H O B : String)
    (hH : get_head_commit st = some H)
    (hO : get_branch_commit st bn = some O)
    (hOne : ¬ O = "") (hne : ¬ H = O)
    (hnotup : O ∉ get_full_history_set st (some H))
    (hnotff : H ∉ get_full_history_set st (some O))
    (hlca : find_common_ancestor st (some H) O = some B)
    (hconf : (merge_walk (get_tree_contents st (get_commit_tree st B))
      (get_tree_contents st (get_commit_tree st H))
      (get_tree_contents st (get_commit_tree st O))).2 ≠ [])
    (hnodup : (merge_walk (get_tree_contents st (get_commit_tree st B))
      (get_tree_contents st (get_commit_tree st H))
      (get_tree_contents st (get_commit_tree st O))).2.Nodup)
    (hok : ∀ p ∈ (merge_walk (get_tree_contents st (get_commit_tree st B))
        (get_tree_contents st (get_commit_tree st H))
        (get_tree_contents st (get_commit_tree st O))).2,
      ((dictGet (get_tree_contents st (get_commit_tree st H)) p).bind
        (fun s => read_object st s)).isSome ∧
      ((dictGet (get_tree_contents st (get_commit_tree st O)) p).bind
        (fun s => read_object st s)).isSome) :
    ∃ st', merge st bn = some (st', false) ∧
      st'.head = st.head ∧
      st'.branches = st.branches ∧
      (∃ extra, st'.objects = st.objects ++ extra ∧ ∀ e ∈ extra, e.2.1 = "blob") ∧
      (∀ p ∈ (merge_walk (get_tree_contents st (get_commit_tree st B))
          (get_tree_contents st (get_commit_tree st H))
          (get_tree_contents st (get_commit_tree st O))).2,
        ∀ hsha osha hk hc okk oc,
          dictGet (get_tree_contents st (get_commit_tree st H)) p = some hsha →
          dictGet (get_tree_contents st (get_commit_tree st O)) p = some osha →
          read_object st hsha = some (hk, hc) → read_object st osha = some (okk, oc) →
          dictGet st'.workdir p = some (conflictMarker bn hc oc) ∧
          dictGet st'.index p = some (hashId "blob" (conflictMarker bn hc oc))) := by
  obtain ⟨st₁, merged', hwc, ⟨extra, hobj, hblob⟩, hhd, hbr, hix, hwout, hmout, hper⟩ :=
    write_conflicts_spec bn (get_tree_contents st (get_commit_tree st H))
      (get_tree_contents st (get_commit_tree st O))
      (merge_walk (get_tree_contents st (get_commit_tree st B))
        (get_tree_contents st (get_commit_tree st H))
        (get_tree_contents st (get_commit_tree st O))).2
      st
      (merge_walk (get_tree_contents st (get_commit_tree st B))
        (get_tree_contents st (get_commit_tree st H))
        (get_tree_contents st (get_commit_tree st O))).1
      hnodup hok
  have h₁ : ¬ (¬ optTruthy (some O) = true ∨ (some H : Option String) = some O) := by
    rintro (hh | hh)
    · exact hh (by simp [optTruthy, hOne])
    · exact hne (Option.some.inj hh)
  have hmerge : merge st bn = some ({ st₁ with index := merged' }, false) := by
    rw [merge.eq_def]
    simp only [hH, hO]
    rw [if_neg h₁]
    rw [if_neg hnotup]
    rw [if_neg (by simpa using hnotff)]
    rw [hlca]
    show (if (merge_walk (get_tree_contents st (get_commit_tree st B))
          (get_tree_contents st (get_commit_tree st H))
          (get_tree_contents st (get_commit_tree st O))).2 ≠ [] then
        match write_conflicts bn (get_tree_contents st (get_commit_tree st H))
            (get_tree_contents st (get_commit_tree st O)) st
            (merge_walk (get_tree_contents st (get_commit_tree st B))
              (get_tree_contents st (get_commit_tree st H))
              (get_tree_contents st (get_commit_tree st O))).1
            (merge_walk (get_tree_contents st (get_commit_tree st B))
              (get_tree_contents st (get_commit_tree st H))
              (get_tree_contents st (get_commit_tree st O))).2 with
        | none => none
        | some (st₁, merged') => some ({ st₁ with index := merged' }, false)
      else
        let p₁ := hash_object st (jsonDumps
          (merge_walk (get_tree_contents st (get_commit_tree st B))
            (get_tree_contents st (get_commit_tree st H))
            (get_tree_contents st (get_commit_tree st O))).1) "tree"
        let p₂ := _create_commit p₁.2 ("Merge branch '" ++ bn ++ "'") p₁.1 [H, O]
        let head_ref := get_head_ref p₂.2
        let st₃ :=
          if pyStartswith head_ref "refs/heads/" then
            { p₂.2 with branches := dictSet p₂.2.branches (pyDrop head_ref 11) p₂.1 }
          else p₂.2
        match checkout st₃ (lastComponent (get_head_ref st₃)) with
        | none => none
        | some (st₄, _) => some (st₄, true)) =
      some ({ st₁ with index := merged' }, false)
    rw [if_pos hconf, hwc]
  refine ⟨{ st₁ with index := merged' }, hmerge, hhd, hbr, ⟨extra, hobj, hblob⟩, ?_⟩
  intro p hp hsha osha hk hc okk oc hh ho hr hro
  obtain ⟨hw, hm⟩ := hper p hp hsha osha hk hc okk oc hh ho hr hro
  exact ⟨hw, hm⟩

/-- Counterexample to claim C7 as stated: in the delete/modify scenario
(`main` deleted `a.txt`, `branch2` modified it) the per-path loop does
record `a.txt` as a conflict, the HEAD tree has no entry for it, and instead
of writing markers and returning a failure signal the operation crashes —
the `head_tree[path]` lookup raises `KeyError`, modelled as `none`. -/
theorem merge_conflict_crash_counterexample :
    (merge_walk dmBaseTree dmHeadTree dmOtherTree).2 = ["a.txt"] ∧
    dictGet dmHeadTree "a.txt" = none ∧
    merge delModRepo "branch2" = none := by
  refine ⟨by decide, by decide, by decide⟩

/-- Witness for C7 (amended) at the content/content conflict scenario. -/
theorem merge_conflict_markers_witness :
    ∃ st', merge ccRepo "branch2" = some (st', false) ∧
      st'.head = ccRepo.head ∧
      st'.branches = ccRepo.branches ∧
      (∃ extra, st'.objects = ccRepo.objects ++ extra ∧ ∀ e ∈ extra, e.2.1 = "blob") ∧
      (∀ p ∈ (merge_walk
          (get_tree_contents ccRepo
            (get_commit_tree ccRepo "592b9cd127387b7261e7ed23c01767dfd2d4200e"))
          (get_tree_contents ccRepo
            (get_commit_tree ccRepo "cd96acdec7e5b9c6982101dc00cdc290eb369cce"))
          (get_tree_contents ccRepo
            (get_commit_tree ccRepo "d488020144e60bc5c56a1b6a8c877b2042572dc5"))).2,
        ∀ hsha osha hk hc okk oc,
          dictGet (get_tree_contents ccRepo
            (get_commit_tree ccRepo "cd96acdec7e5b9c6982101dc00cdc290eb369cce")) p =
              some hsha →
          dictGet (get_tree_contents ccRepo
            (get_commit_tree ccRepo "d488020144e60bc5c56a1b6a8c877b2042572dc5")) p =
              some osha →
          read_object ccRepo hsha = some (hk, hc) →
          read_object ccRepo osha = some (okk, oc) →
          dictGet st'.workdir p = some (conflictMarker "branch2" hc oc) ∧
          dictGet st'.index p = some (hashId "blob" (conflictMarker "branch2" hc oc))) :=
  merge_conflict_markers ccRepo "branch2" "cd96acdec7e5b9c6982101dc00cdc290eb369cce"
    "d488020144e60bc5c56a1b6a8c877b2042572dc5" "592b9cd127387b7261e7ed23c01767dfd2d4200e"
    (by decide) (by decide) (by decide) (by decide) (by decide) (by decide)
    (by decide) (by decide) (by decide) (by decide)

/-! ## Claim C1: the stash round trip -/

/-- Claim C1 (code bug): in the S6 scenario (committed `a.txt` = "x",
modified on disk to "y"), `stash push` does restore `a.txt` to "x", but the
subsequent `stash pop` leaves `a.txt` reading "x", not "y": the pop parses
the workdir snapshot id into `workdir_tree` and then never materializes it —
it only checks out the HEAD commit, whose tree holds the committed "x".  The
stash entry itself is removed, so the "y" state is lost for good. -/
theorem stash_pop_loses_workdir :
    (stash_push stashScenario).map (fun r => (dictGet r.1.workdir "a.txt", r.2)) =
      some (some "x", true) ∧
    ((stash_push stashScenario).bind (fun r => stash_pop_apply r.1 true)).map
        (fun r => (dictGet r.1.workdir "a.txt", r.1.stashes, r.2)) =
      some (some "x", [], true) := by
  refine ⟨by decide, by decide⟩

end PyGit
